import Mathlib

/-!
Verification of the jpm package manager's version-resolution core and
instruction interpreter, as a shallow embedding in Lean 4.

Go strings are modelled as `List Char` (Go's byte-wise lexicographic
comparison of valid UTF-8 agrees with code-point lexicographic order).
Go `int` is modelled as `Int`; 64-bit overflow is not modelled because the
verified claims only involve small values.  Fallible Go functions returning
`(T, error)` are modelled as `Except (List Char) T`, carrying the formatted
error message.
-/

/-- Go error values, identified by their formatted message. -/
abbrev GoError := List Char

instance exceptDecEq {ε α : Type} [DecidableEq ε] [DecidableEq α] :
    DecidableEq (Except ε α)
  | .error e, .error f =>
    if h : e = f then .isTrue (by rw [h])
    else .isFalse (by intro hc; cases hc; exact h rfl)
  | .error _, .ok _ => .isFalse (by intro hc; cases hc)
  | .ok _, .error _ => .isFalse (by intro hc; cases hc)
  | .ok a, .ok b =>
    if h : a = b then .isTrue (by rw [h])
    else .isFalse (by intro hc; cases hc; exact h rfl)

/-- The ASCII single-quote character, written by code point to keep source
text free of bare quote characters. -/
def sqc : Char := Char.ofNat 39

/-- ASCII whitespace recognized by the model of `strings.TrimSpace`
(Unicode-only space code points are not modelled; no input in the verified
claims contains them). -/
def isSpaceChar (c : Char) : Bool :=
  c = ' ' || c = Char.ofNat 9 || c = Char.ofNat 10 ||
  c = Char.ofNat 11 || c = Char.ofNat 12 || c = Char.ofNat 13

/-- Model of Go `strings.TrimSpace`. -/
def trimSpace (s : List Char) : List Char :=
  ((s.dropWhile isSpaceChar).reverse.dropWhile isSpaceChar).reverse

/-- Model of Go `strings.SplitN(s, sep, 2)` for a one-character separator:
the part before the first occurrence, and the part after it when present. -/
def splitOnFirst (c : Char) : List Char → List Char × Option (List Char)
  | [] => ([], none)
  | a :: as =>
    if a = c then ([], some as)
    else
      let r := splitOnFirst c as
      (a :: r.1, r.2)

/-- Model of Go `strings.Split(s, sep)` for a one-character separator. -/
def splitAll (c : Char) : List Char → List (List Char)
  | [] => [[]]
  | a :: as =>
    if a = c then [] :: splitAll c as
    else
      match splitAll c as with
      | [] => [[a]]
      | p :: ps => (a :: p) :: ps

/-- Model of Go `strings.TrimPrefix(s, string(c))` for a one-character
prefix string. -/
def trimLeadChar (c : Char) : List Char → List Char
  | [] => []
  | a :: as => if a = c then as else a :: as

/-- `startsList s p` models Go `strings.HasPrefix(s, p)`. -/
def startsList : List Char → List Char → Bool
  | _, [] => true
  | [], _ :: _ => false
  | a :: as, b :: bs => a = b && startsList as bs

/-- Model of Go `strings.TrimPrefix(s, p)` for a general prefix. -/
def goTrimPre (s p : List Char) : List Char :=
  if startsList s p then s.drop p.length else s

/-- `containsChar s c` models Go `strings.Contains(s, string(c))`. -/
def containsChar (s : List Char) (c : Char) : Bool :=
  s.any (fun a => a = c)

/-- `containsAny s set` models Go `strings.ContainsAny(s, set)`. -/
def containsAny (s set : List Char) : Bool :=
  s.any (fun a => set.any (fun b => a = b))

/-- The decimal digit character for `n < 10`. -/
def digitChar : Nat → Char
  | 0 => '0' | 1 => '1' | 2 => '2' | 3 => '3' | 4 => '4'
  | 5 => '5' | 6 => '6' | 7 => '7' | 8 => '8' | _ => '9'

/-- Is `c` an ASCII decimal digit? -/
def isDigitChar (c : Char) : Bool :=
  48 ≤ c.toNat && c.toNat ≤ 57

/-- Fuel-indexed decimal rendering (structural recursion so that the kernel
can evaluate it). -/
def natToCharsAux : Nat → Nat → List Char
  | 0, _ => []
  | f + 1, n => if n < 10 then [digitChar n] else natToCharsAux f (n / 10) ++ [digitChar (n % 10)]

/-- Decimal rendering of a natural number, as produced by Go `fmt.Sprintf`
with verb `%d`. -/
def natToChars (n : Nat) : List Char :=
  natToCharsAux (n + 1) n

/-- Decimal rendering of a Go `int`. -/
def intToChars (i : Int) : List Char :=
  if i < 0 then '-' :: natToChars i.natAbs else natToChars i.toNat

/-- Accumulating decimal reader over digit characters; `none` propagates a
non-digit. -/
def parseDigitsAux (acc : Nat) : List Char → Option Nat
  | [] => some acc
  | c :: cs => if isDigitChar c then parseDigitsAux (acc * 10 + (c.toNat - 48)) cs else none

/-- Reads a nonempty all-digit string as a natural number (the unsigned part
of Go `strconv.Atoi`); fails on an empty string or any non-digit. -/
def parseDigits : List Char → Option Nat
  | [] => none
  | c :: cs => if isDigitChar c then parseDigitsAux (c.toNat - 48) cs else none

/-- Model of Go `strconv.Atoi`: optional single `+`/`-` sign followed by at
least one digit.  The 64-bit range check is not modelled (the claims under
verification involve only small numerals). -/
def atoi : List Char → Option Int
  | [] => none
  | c :: rest =>
    if c = '+' then (parseDigits rest).map Int.ofNat
    else if c = '-' then (parseDigits rest).map (fun n => -(Int.ofNat n : Int))
    else (parseDigits (c :: rest)).map Int.ofNat

/-- The value Go code observes when it ignores `strconv.Atoi`'s error: the
parsed value on success and `0` on a syntax error. -/
def atoiOr0 (s : List Char) : Int :=
  (atoi s).getD 0

/-- Byte-wise lexicographic `>` on Go strings (`s > t`). -/
def strGt : List Char → List Char → Bool
  | _ :: _, [] => true
  | [], _ => false
  | a :: as, b :: bs => if a < b then false else if b < a then true else strGt as bs

/-- ASCII upper-casing, modelling `strings.ToUpper` on the ASCII range (the
instruction keywords are all ASCII). -/
def toUpperAscii (s : List Char) : List Char :=
  s.map (fun c => if 97 ≤ c.toNat && c.toNat ≤ 122 then Char.ofNat (c.toNat - 32) else c)

/-- Model of `filepath.IsAbs` on Unix: the path starts with a slash. -/
def isAbsPath (p : List Char) : Bool :=
  match p with
  | [] => false
  | c :: _ => c = '/'

/-- Model of `filepath.Join a b` (the `Clean` normalization pass is not
modelled; the claims only concern which path is joined, not its normal
form). -/
def goJoin (a b : List Char) : List Char :=
  a ++ '/' :: b

/-- `substrOf p s`: does `p` occur as a contiguous substring of `s`? -/
def substrOf (p : List Char) : List Char → Bool
  | [] => startsList [] p
  | c :: cs => startsList (c :: cs) p || substrOf p cs

namespace version

/-- `version.Version` from src/version/version.go. -/
structure Version where
  major : Int
  minor : Int
  patch : Int
  prerelease : List Char
  build : List Char
  raw : List Char
deriving DecidableEq, Repr

/-- Error message `invalid version format: raw`. -/
def invalidFormatMsg (raw : List Char) : GoError :=
  ("invalid version format: ").data ++ raw

/-- Error message `invalid major version: part`. -/
def invalidMajorMsg (part : List Char) : GoError :=
  ("invalid major version: ").data ++ part

/-- Error message `invalid minor version: part`. -/
def invalidMinorMsg (part : List Char) : GoError :=
  ("invalid minor version: ").data ++ part

/-- Error message `invalid patch version: part`. -/
def invalidPatchMsg (part : List Char) : GoError :=
  ("invalid patch version: ").data ++ part

/-- `version.Parse` from src/version/version.go: strips an optional leading
`v`/`V`, splits off build metadata at the first `+`, then a prerelease tag at
the first `-`, and reads 1 to 3 dot-separated numeric components. -/
def Parse (s : List Char) : Except GoError Version :=
  let t := trimLeadChar 'V' (trimLeadChar 'v' s)
  let pb := splitOnFirst '+' t
  let build := pb.2.getD []
  let pd := splitOnFirst '-' pb.1
  let pre := pd.2.getD []
  match splitAll '.' pd.1 with
  | [p0] =>
    match atoi p0 with
    | none => .error (invalidMajorMsg p0)
    | some maj => .ok ⟨maj, 0, 0, pre, build, s⟩
  | [p0, p1] =>
    match atoi p0 with
    | none => .error (invalidMajorMsg p0)
    | some maj =>
      match atoi p1 with
      | none => .error (invalidMinorMsg p1)
      | some mino => .ok ⟨maj, mino, 0, pre, build, s⟩
  | [p0, p1, p2] =>
    match atoi p0 with
    | none => .error (invalidMajorMsg p0)
    | some maj =>
      match atoi p1 with
      | none => .error (invalidMinorMsg p1)
      | some mino =>
        match atoi p2 with
        | none => .error (invalidPatchMsg p2)
        | some pat => .ok ⟨maj, mino, pat, pre, build, s⟩
  | _ => .error (invalidFormatMsg s)

/-- `Version.String` from src/version/version.go:
`major.minor.patch[-prerelease][+build]`. -/
def VersionString (v : Version) : List Char :=
  intToChars v.major ++ '.' :: intToChars v.minor ++ '.' :: intToChars v.patch ++
    (if v.prerelease ≠ [] then '-' :: v.prerelease else []) ++
    (if v.build ≠ [] then '+' :: v.build else [])

/-- `Version.Compare` from src/version/version.go. -/
def Compare (v other : Version) : Int :=
  if v.major ≠ other.major then (if other.major < v.major then 1 else -1)
  else if v.minor ≠ other.minor then (if other.minor < v.minor then 1 else -1)
  else if v.patch ≠ other.patch then (if other.patch < v.patch then 1 else -1)
  else if v.prerelease = [] ∧ other.prerelease ≠ [] then 1
  else if v.prerelease ≠ [] ∧ other.prerelease = [] then -1
  else if v.prerelease ≠ other.prerelease then
    (if strGt v.prerelease other.prerelease then 1 else -1)
  else 0

/-- `Version.LessThan`. -/
def LessThan (v other : Version) : Bool :=
  Compare v other < 0

/-- `Version.GreaterThan`. -/
def GreaterThan (v other : Version) : Bool :=
  0 < Compare v other

/-- `Version.Equal`. -/
def Equal (v other : Version) : Bool :=
  Compare v other = 0

/-- The operator-character set `>=<^~*x` used by `IsCompatible`'s
exact-version test. -/
def opChars : List Char := (">=<^~*x").data

/-- The wildcard position check: Go compares the version component against
`strconv.Atoi` of the constraint part, ignoring `Atoi`'s error (so a
non-numeric part is compared as `0`); the part `x` matches anything, and so
does an absent part. -/
def posOk (p : Option (List Char)) (comp : Int) : Bool :=
  match p with
  | none => true
  | some q => q = ['x'] || comp = atoiOr0 q

/-- The wildcard branch of `IsCompatible`: after replacing `*` with `x` and
splitting on `.`, each of the first three present, non-`x` positions must
equal the corresponding component. -/
def wildcardMatch (v : Version) (parts : List (List Char)) : Bool :=
  posOk (parts.get? 0) v.major && posOk (parts.get? 1) v.minor && posOk (parts.get? 2) v.patch

/-- Replaces every `*` by `x` (`strings.ReplaceAll(constraint, "*", "x")`). -/
def starToX (s : List Char) : List Char :=
  s.map (fun c => if c = '*' then 'x' else c)

/-- Error message `unsupported constraint format: c`. -/
def unsupportedMsg (c : List Char) : GoError :=
  ("unsupported constraint format: ").data ++ c

/-- `Version.IsCompatible` from src/version/version.go: exact match when no
operator characters occur, then the `>=`, `>`, `<=`, `<`, `^`, `~` prefixes,
then the wildcard branch when `x` or `*` occurs, otherwise an unsupported
constraint error. -/
def IsCompatible (v : Version) (constraint0 : List Char) : Except GoError Bool :=
  let c := trimSpace constraint0
  if containsAny c opChars = false then
    match Parse c with
    | .error e => .error e
    | .ok t => .ok (Equal v t)
  else if startsList c ('>' :: '=' :: []) then
    match Parse (goTrimPre c ('>' :: '=' :: [])) with
    | .error e => .error e
    | .ok t => .ok (GreaterThan v t || Equal v t)
  else if startsList c ('>' :: []) then
    match Parse (goTrimPre c ('>' :: [])) with
    | .error e => .error e
    | .ok t => .ok (GreaterThan v t)
  else if startsList c ('<' :: '=' :: []) then
    match Parse (goTrimPre c ('<' :: '=' :: [])) with
    | .error e => .error e
    | .ok t => .ok (LessThan v t || Equal v t)
  else if startsList c ('<' :: []) then
    match Parse (goTrimPre c ('<' :: [])) with
    | .error e => .error e
    | .ok t => .ok (LessThan v t)
  else if startsList c ('^' :: []) then
    match Parse (goTrimPre c ('^' :: [])) with
    | .error e => .error e
    | .ok t => .ok (decide (v.major = t.major) && (GreaterThan v t || Equal v t))
  else if startsList c ('~' :: []) then
    match Parse (goTrimPre c ('~' :: [])) with
    | .error e => .error e
    | .ok t => .ok (decide (v.major = t.major) && decide (v.minor = t.minor) &&
        (GreaterThan v t || Equal v t))
  else if containsChar c 'x' || containsChar c '*' then
    .ok (wildcardMatch v (splitAll '.' (starToX c)))
  else
    .error (unsupportedMsg c)

/-- Is the first character not a relational, caret, or tilde operator? -/
def headOpFree (s : List Char) : Bool :=
  match s with
  | [] => true
  | c :: _ => !(c = '>' || c = '<' || c = '^' || c = '~')

/-- The invariants `Parse` guarantees about its output: nonnegative numeric
components and a prerelease tag free of `+` (everything after the first `+`
went to the build field). -/
def goodVersion (v : Version) : Prop :=
  0 ≤ v.major ∧ 0 ≤ v.minor ∧ 0 ≤ v.patch ∧ '+' ∉ v.prerelease

end version

namespace db

/-- `model.Release` from src/model/model.go (timestamps as integers). -/
structure Release where
  id : Int := 0
  packageId : Int := 0
  version : List Char := []
  binaryUrl : List Char := []
  instrs : List Char := []
  checksumSha256 : List Char := []
  fileSizeBytes : Int := 0
  releaseNotes : List Char := []
  isPrerelease : Bool := false
  isDeprecated : Bool := false
  releasedAt : Int := 0
deriving DecidableEq, Repr

/-- The resolution-error taxonomy of src/db/remote.go, one constructor per
distinct `fmt.Errorf` site reachable from `GetRelease` (given the release
rows; the package lookup itself is modelled away). -/
inductive RError where
  | noReleasesForPackage
  | versionNotFound (v : List Char)
  | invalidVersionFormat (v : List Char)
  | noReleasesFound
  | invalidConstraint (c : List Char) (msg : GoError)
  | noCompatibleVersion (c : List Char)
deriving DecidableEq, Repr

/-- The Go message rendered for each `RError` (quotes written via `sqc`). -/
def RError.message : RError → List Char
  | .noReleasesForPackage => ("no releases found for package").data
  | .versionNotFound v => ("version ").data ++ sqc :: v ++ sqc :: (" not found").data
  | .invalidVersionFormat v => ("invalid version format: ").data ++ v
  | .noReleasesFound => ("no releases found").data
  | .invalidConstraint c m =>
      ("invalid constraint ").data ++ sqc :: c ++ sqc :: (": ").data ++ m
  | .noCompatibleVersion c =>
      ("no version satisfies constraint ").data ++ sqc :: c ++ sqc :: []

/-- The string `latest`. -/
def latestStr : List Char := ("latest").data

/-- First row of maximal `releasedAt`, modelling the SQL
`ORDER BY released_at DESC LIMIT 1` of `getLatestRelease` (SQL leaves the
order of equal timestamps unspecified; this model keeps the earlier row). -/
def pickLatest : List Release → Option Release
  | [] => none
  | r :: rest =>
    match pickLatest rest with
    | none => some r
    | some b => if r.releasedAt < b.releasedAt then some b else some r

/-- `getLatestRelease` from src/db/remote.go: among rows with
`is_deprecated = FALSE`, the one with the latest `released_at`;
`sql.ErrNoRows` becomes the `no releases found for package` error. -/
def getLatestRelease (rows : List Release) : Except RError Release :=
  match pickLatest (rows.filter (fun r => !r.isDeprecated)) with
  | none => .error .noReleasesForPackage
  | some r => .ok r

/-- The SQL row lookup `WHERE version = ? LIMIT 1` of `getExactRelease`
(no deprecation filter; `(package_id, version)` is UNIQUE in the schema, so
at most one row matches). -/
def findRelease (rows : List Release) (nv : List Char) : Option Release :=
  rows.find? (fun r => decide (r.version = nv))

/-- `getExactRelease` from src/db/remote.go: re-parses the version string,
normalizes it with `Version.String`, and looks the row up by that exact
string. -/
def getExactRelease (rows : List Release) (versionStr : List Char) : Except RError Release :=
  match version.Parse versionStr with
  | .error _ => .error (.invalidVersionFormat versionStr)
  | .ok v =>
    match findRelease rows (version.VersionString v) with
    | none => .error (.versionNotFound versionStr)
    | some r => .ok r

/-- The loop body of `getReleaseByConstraint`: skips deprecated rows and rows
whose version does not parse, fails on the first row for which
`IsCompatible` errors, and otherwise keeps the best (strictly greater)
compatible row seen so far. -/
def constraintLoop (e : List Char) :
    List Release → Option (Release × version.Version) → Except RError Release
  | [], best =>
    match best with
    | some (r, _) => .ok r
    | none => .error (.noCompatibleVersion e)
  | r :: rest, best =>
    if r.isDeprecated then constraintLoop e rest best
    else
      match version.Parse r.version with
      | .error _ => constraintLoop e rest best
      | .ok v =>
        match version.IsCompatible v e with
        | .error m => .error (.invalidConstraint e m)
        | .ok false => constraintLoop e rest best
        | .ok true =>
          match best with
          | none => constraintLoop e rest (some (r, v))
          | some (_, bv) =>
            if version.GreaterThan v bv then constraintLoop e rest (some (r, v))
            else constraintLoop e rest best

/-- `getReleaseByConstraint` from src/db/remote.go. -/
def getReleaseByConstraint (rows : List Release) (constraint : List Char) :
    Except RError Release :=
  match rows with
  | [] => .error .noReleasesFound
  | _ => constraintLoop constraint rows none

/-- `GetRelease` from src/db/remote.go, over the package's release rows
(the `GetPackageInfo` database lookup is outside the resolution logic the
claims quantify over): empty or `latest` goes to the latest-release query,
a parseable version to the exact lookup, anything else to the constraint
scan. -/
def GetRelease (rows : List Release) (versionConstraint : List Char) :
    Except RError Release :=
  if versionConstraint = [] ∨ versionConstraint = latestStr then
    getLatestRelease rows
  else
    match version.Parse versionConstraint with
    | .ok _ => getExactRelease rows versionConstraint
    | .error _ => getReleaseByConstraint rows versionConstraint

/-- The survivor predicate of the constraint scan, written from the claim:
not deprecated, version parseable, and `IsCompatible` returns `true`. -/
def survives (e : List Char) (r : Release) : Bool :=
  !r.isDeprecated &&
    (match version.Parse r.version with
     | .error _ => false
     | .ok v =>
       match version.IsCompatible v e with
       | .error _ => false
       | .ok b => b)

/-- A fixed version value used to probe whether a constraint evaluates
without error (`IsCompatible`'s error outcome does not depend on the
version, proved below). -/
def probeVersion : version.Version := ⟨0, 0, 0, [], [], []⟩

/-- A constraint is well formed when `IsCompatible` evaluates it without
error. -/
def wellFormedConstraint (e : List Char) : Bool :=
  (version.IsCompatible probeVersion e).isOk

end db

namespace parser

/-- The instruction keyword enumeration from src/model/model.go (parser
package), in declaration order; Go renders a `Token` with `%v` as its
underlying integer. -/
inductive Token where
  | DOWNLOAD | EXTRACT | EXTRACT_TAR | EXTRACT_TAR_GZ
  | MOVE | COPY | RENAME | DELETE | CHMOD
  | ADD_TO_PATH | SET_LOCATION | RUN_SCRIPT | INVALID
deriving DecidableEq, Repr

/-- The integer value of each `Token` constant (`iota` order). -/
def tokenIdx : Token → Nat
  | .DOWNLOAD => 0 | .EXTRACT => 1 | .EXTRACT_TAR => 2 | .EXTRACT_TAR_GZ => 3
  | .MOVE => 4 | .COPY => 5 | .RENAME => 6 | .DELETE => 7 | .CHMOD => 8
  | .ADD_TO_PATH => 9 | .SET_LOCATION => 10 | .RUN_SCRIPT => 11 | .INVALID => 12

/-- The keyword table `tokenMap`. -/
def tokenMap : List (List Char × Token) :=
  [(("DOWNLOAD").data, .DOWNLOAD), (("EXTRACT").data, .EXTRACT),
   (("EXTRACT_TAR").data, .EXTRACT_TAR), (("EXTRACT_TARGZ").data, .EXTRACT_TAR_GZ),
   (("MOVE").data, .MOVE), (("COPY").data, .COPY), (("RENAME").data, .RENAME),
   (("DELETE").data, .DELETE), (("CHMOD").data, .CHMOD),
   (("ADD_TO_PATH").data, .ADD_TO_PATH), (("SET_LOCATION").data, .SET_LOCATION),
   (("RUN_SCRIPT").data, .RUN_SCRIPT)]

/-- `stringToToken`: case-insensitive keyword lookup, `INVALID` on a miss. -/
def stringToToken (s : List Char) : Token :=
  match tokenMap.find? (fun p => decide (p.1 = toUpperAscii s)) with
  | some p => p.2
  | none => .INVALID

/-- `parser.Instruction`: a token, its arguments, the trimmed source line,
and its 1-based line number. -/
structure Instruction where
  token : Token
  args : List (List Char)
  rawLine : List Char
  lineNumber : Nat
deriving DecidableEq, Repr

/-- `line N: ` message head. -/
def lineMsg (n : Nat) : List Char :=
  ("line ").data ++ natToChars n ++ (": ").data

/-- The arity-error message of the EXTRACT family (note it says `EXTRACT`
for all three variants). -/
def extractArityMsg (n : Nat) : GoError :=
  lineMsg n ++ ("EXTRACT requires 1-2 arguments (source [destination])").data

/-- The arity-error message of the exactly-one-argument variants; `%v` on a
`Token` prints its integer value, not the keyword. -/
def oneArgMsg (t : Token) (n : Nat) : GoError :=
  lineMsg n ++ natToChars (tokenIdx t) ++ (" requires exactly 1 argument").data

/-- The arity-error message of the exactly-two-argument variants; `%v` on a
`Token` prints its integer value, not the keyword. -/
def twoArgMsg (t : Token) (n : Nat) : GoError :=
  lineMsg n ++ natToChars (tokenIdx t) ++
    (" requires exactly 2 arguments (source destination)").data

/-- The arity-error message of `RUN_SCRIPT`. -/
def runScriptArityMsg (n : Nat) : GoError :=
  lineMsg n ++ ("RUN_SCRIPT requires at least 1 argument").data

/-- `Instruction.Validate` from src/model/model.go: per-variant argument
count checks. -/
def validateInstr (i : Instruction) : Except GoError Unit :=
  match i.token with
  | .EXTRACT | .EXTRACT_TAR | .EXTRACT_TAR_GZ =>
    if i.args.length < 1 ∨ 2 < i.args.length then .error (extractArityMsg i.lineNumber)
    else .ok ()
  | .ADD_TO_PATH | .SET_LOCATION | .DELETE | .CHMOD =>
    if i.args.length ≠ 1 then .error (oneArgMsg i.token i.lineNumber) else .ok ()
  | .MOVE | .COPY | .RENAME =>
    if i.args.length ≠ 2 then .error (twoArgMsg i.token i.lineNumber) else .ok ()
  | .RUN_SCRIPT =>
    if i.args.length < 1 then .error (runScriptArityMsg i.lineNumber) else .ok ()
  | _ => .ok ()

/-- One step of `smartSplit`'s character scan.  State: the previous raw
character (`none` at the start), whether we are inside quotes, the active
quote character, the current word, and the words flushed so far.  Returns
the final words and whether the scan ended inside quotes. -/
def smartSplitAux : List Char → Option Char → Bool → Char → List Char →
    List (List Char) → List (List Char) × Bool
  | [], _, inQ, _, cur, parts =>
    (if cur ≠ [] then parts ++ [cur] else parts, inQ)
  | ch :: rest, prev, inQ, qc, cur, parts =>
    if (ch = '"' ∨ ch = sqc) ∧ inQ = false ∧ (prev = none ∨ prev = some ' ') then
      smartSplitAux rest (some ch) true ch cur parts
    else if ch = qc ∧ inQ = true then
      smartSplitAux rest (some ch) false (Char.ofNat 0) cur parts
    else if ch = ' ' ∧ inQ = false then
      smartSplitAux rest (some ch) inQ qc []
        (if cur ≠ [] then parts ++ [cur] else parts)
    else
      smartSplitAux rest (some ch) inQ qc (cur ++ [ch]) parts

/-- `Parser.smartSplit` from src/model/model.go: splits on unquoted spaces;
a quote opening at a word boundary spans verbatim to its partner; an
unclosed quote with no flushed words yields the whole line. -/
def smartSplit (line : List Char) : List (List Char) :=
  match smartSplitAux line none false (Char.ofNat 0) [] [] with
  | (parts, inQ) => if inQ ∧ parts = [] then [line] else parts

/-- `line N: empty instruction`. -/
def emptyInstrMsg (n : Nat) : GoError :=
  lineMsg n ++ ("empty instruction").data

/-- `line N: invalid command 'w'`. -/
def invalidCommandMsg (n : Nat) (w : List Char) : GoError :=
  lineMsg n ++ ("invalid command ").data ++ sqc :: w ++ sqc :: []

/-- `Parser.parseLine`: tokenize with `smartSplit`, map the first word to a
keyword, and build the instruction. -/
def parseLine (line : List Char) (lineNum : Nat) : Except GoError Instruction :=
  match smartSplit line with
  | [] => .error (emptyInstrMsg lineNum)
  | w :: args =>
    match stringToToken w with
    | .INVALID => .error (invalidCommandMsg lineNum w)
    | t => .ok ⟨t, args, line, lineNum⟩

/-- The line loop of `Parser.Parse`: `n` is the 0-based index of the next
line; blank lines and (with comments enabled) `#`-lines are skipped; each
parsed instruction is validated before being appended. -/
def parseLinesAux (allowComments : Bool) :
    List (List Char) → Nat → List Instruction → Except GoError (List Instruction)
  | [], _, acc => .ok acc
  | l :: rest, n, acc =>
    let line := trimSpace l
    if line = [] ∨ (allowComments ∧ startsList line ('#' :: [])) then
      parseLinesAux allowComments rest (n + 1) acc
    else
      match parseLine line (n + 1) with
      | .error e => .error e
      | .ok i =>
        match validateInstr i with
        | .error e => .error e
        | .ok _ => parseLinesAux allowComments rest (n + 1) (acc ++ [i])

/-- `parser.Parser` configuration (`StrictMode` is declared but never read
by the source). -/
structure ParserCfg where
  allowComments : Bool
  strictMode : Bool
deriving DecidableEq, Repr

/-- `NewParser`. -/
def NewParser : ParserCfg := ⟨true, true⟩

/-- `empty instruction set`. -/
def emptySetMsg : GoError := ("empty instruction set").data

/-- `no valid instructions found`. -/
def noValidMsg : GoError := ("no valid instructions found").data

/-- `Parser.Parse` from src/model/model.go: reject blank input, split into
lines, run the line loop, and reject an empty result. -/
def parseScript (cfg : ParserCfg) (data : List Char) : Except GoError (List Instruction) :=
  if trimSpace data = [] then .error emptySetMsg
  else
    match parseLinesAux cfg.allowComments (splitAll (Char.ofNat 10) data) 0 [] with
    | .error e => .error e
    | .ok [] => .error noValidMsg
    | .ok l => .ok l

/-- The claim's arity table (§3 Instruction invariant): Extract family 1-2,
Move/Copy/Rename exactly 2, AddToPath/SetLocation/Delete/Chmod exactly 1,
RunScript at least 1, Download unconstrained. -/
def arityOk : Token → Nat → Bool
  | .EXTRACT, n => 1 ≤ n && n ≤ 2
  | .EXTRACT_TAR, n => 1 ≤ n && n ≤ 2
  | .EXTRACT_TAR_GZ, n => 1 ≤ n && n ≤ 2
  | .MOVE, n => n = 2
  | .COPY, n => n = 2
  | .RENAME, n => n = 2
  | .ADD_TO_PATH, n => n = 1
  | .SET_LOCATION, n => n = 1
  | .DELETE, n => n = 1
  | .CHMOD, n => n = 1
  | .RUN_SCRIPT, n => 1 ≤ n
  | .DOWNLOAD, _ => true
  | .INVALID, _ => true

end parser

namespace model

/-- `model.Installation` from src/model/model.go (timestamps as integers). -/
structure Installation where
  id : Int := 0
  name : List Char := []
  vers : List Char := []
  location : List Char := []
  sysPath : List Char := []
  installedAt : Int := 0
  updatedAt : Int := 0
  installedFromUrl : List Char := []
  checksumSha256 : List Char := []
  fileSizeBytes : Int := 0
  status : List Char := []
  errorMessage : List Char := []
deriving DecidableEq, Repr

/-- `model.EnvModification` from src/model/model.go. -/
structure EnvModification where
  id : Int := 0
  installedId : Int := 0
  modificationType : List Char := []
  variableName : List Char := []
  variableValue : List Char := []
  originalValue : List Char := []
  createdAt : Int := 0
deriving DecidableEq, Repr

/-- `model.InstallationContext` from src/model/model.go. -/
structure InstallationContext where
  installation : Installation
  workDir : List Char
  extractedPath : List Char := []
  files : List (List Char) := []
  envMods : List EnvModification := []
deriving DecidableEq, Repr

/-- `model.NewInstallationContext`. -/
def NewInstallationContext (name vers workDir : List Char) : InstallationContext :=
  { installation := { name := name, vers := vers, status := ("pending").data }
    workDir := workDir }

/-- `InstallationContext.AddFile` (only the path is recorded; the file type
and executable flag are accepted and dropped, as in the source). -/
def AddFile (path _fileType : List Char) (_isExec : Bool)
    (ctx : InstallationContext) : InstallationContext :=
  { ctx with files := ctx.files ++ [path] }

/-- `InstallationContext.AddEnvMod`. -/
def AddEnvMod (modType varName varValue original : List Char)
    (ctx : InstallationContext) : InstallationContext :=
  { ctx with envMods := ctx.envMods ++
      [{ modificationType := modType, variableName := varName,
         variableValue := varValue, originalValue := original }] }

/-- `InstallationContext.MarkCompleted`. -/
def MarkCompleted (ctx : InstallationContext) : InstallationContext :=
  { ctx with installation := { ctx.installation with status := ("completed").data } }

/-- `InstallationContext.MarkFailed`. -/
def MarkFailed (e : GoError) (ctx : InstallationContext) : InstallationContext :=
  { ctx with installation :=
      { ctx.installation with status := ("failed").data, errorMessage := e } }

end model

namespace exec

/-- The external side-effect capabilities of §6, as consumed by the
instruction executor: extraction, file operations, and PATH registration
(which returns the registered PATH value). -/
structure Caps where
  extractZip : List Char → List Char → Except GoError (List Char)
  extractTar : List Char → List Char → Except GoError (List Char)
  extractTarGz : List Char → List Char → Except GoError (List Char)
  move : List Char → List Char → Except GoError Unit
  copy : List Char → List Char → Except GoError Unit
  delete : List Char → Except GoError Unit
  makeExecutable : List Char → Except GoError Unit
  addToPath : List Char → Except GoError (List Char)

/-- The first argument of an instruction. -/
def arg0 (i : parser.Instruction) : List Char :=
  (i.args.get? 0).getD []

/-- The second argument of an instruction. -/
def arg1 (i : parser.Instruction) : List Char :=
  (i.args.get? 1).getD []

/-- The extraction destination: `workDir/arg1` when a second argument is
present, otherwise `workDir` itself. -/
def extractDest (i : parser.Instruction) (workDir : List Char) : List Char :=
  if 1 < i.args.length then goJoin workDir (arg1 i) else workDir

/-- The absolute path an `ADD_TO_PATH` argument resolves to: the argument
itself when absolute, else joined with the working directory. -/
def resolvedAddPath (i : parser.Instruction) (workDir : List Char) : List Char :=
  if isAbsPath (arg0 i) then arg0 i else goJoin workDir (arg0 i)

/-- Modelled from the spec: `Instruction.RunWithContext` is invoked by the
install loop in src/cmd/install.go but its definition is not among the
sources; this models §4.5 of the spec.  Extract variants extract
`workDir/arg0` into the destination and record the destination as an applied
effect (the follow-up archive delete is warning-only); Move/Copy/Rename move
`workDir/arg0` to `workDir/arg1` and record the destination; Delete and
Chmod invoke their capability; AddToPath resolves the argument to an
absolute path, invokes PATH registration, and on success sets the context's
PATH-entry field and appends an `EnvironmentModification` record;
SetLocation mutates only the context.  Download and RunScript have no
specified executor behavior and fail as unimplemented. -/
def runWithContext (caps : Caps) (i : parser.Instruction)
    (ctx : model.InstallationContext) : Except GoError model.InstallationContext :=
  match i.token with
  | .EXTRACT =>
    match caps.extractZip (goJoin ctx.workDir (arg0 i)) (extractDest i ctx.workDir) with
    | .error e => .error (("failed to extract: ").data ++ e)
    | .ok _ => .ok (model.AddFile (extractDest i ctx.workDir) [] false ctx)
  | .EXTRACT_TAR =>
    match caps.extractTar (goJoin ctx.workDir (arg0 i)) (extractDest i ctx.workDir) with
    | .error e => .error (("failed to extract tar: ").data ++ e)
    | .ok _ => .ok (model.AddFile (extractDest i ctx.workDir) [] false ctx)
  | .EXTRACT_TAR_GZ =>
    match caps.extractTarGz (goJoin ctx.workDir (arg0 i)) (extractDest i ctx.workDir) with
    | .error e => .error (("failed to extract tar: ").data ++ e)
    | .ok _ => .ok (model.AddFile (extractDest i ctx.workDir) [] false ctx)
  | .MOVE =>
    match caps.move (goJoin ctx.workDir (arg0 i)) (goJoin ctx.workDir (arg1 i)) with
    | .error e => .error e
    | .ok _ => .ok (model.AddFile (goJoin ctx.workDir (arg1 i)) [] false ctx)
  | .COPY =>
    match caps.copy (goJoin ctx.workDir (arg0 i)) (goJoin ctx.workDir (arg1 i)) with
    | .error e => .error e
    | .ok _ => .ok (model.AddFile (goJoin ctx.workDir (arg1 i)) [] false ctx)
  | .RENAME =>
    match caps.move (goJoin ctx.workDir (arg0 i)) (goJoin ctx.workDir (arg1 i)) with
    | .error e => .error e
    | .ok _ => .ok (model.AddFile (goJoin ctx.workDir (arg1 i)) [] false ctx)
  | .DELETE =>
    match caps.delete (goJoin ctx.workDir (arg0 i)) with
    | .error e => .error e
    | .ok _ => .ok ctx
  | .CHMOD =>
    match caps.makeExecutable (goJoin ctx.workDir (arg0 i)) with
    | .error e => .error e
    | .ok _ => .ok ctx
  | .ADD_TO_PATH =>
    match caps.addToPath (resolvedAddPath i ctx.workDir) with
    | .error e => .error (("failed to add to PATH: ").data ++ e)
    | .ok sysPath =>
      .ok (model.AddEnvMod (("path_addition").data) (("PATH").data) sysPath []
        { ctx with installation := { ctx.installation with sysPath := sysPath } })
  | .SET_LOCATION =>
    .ok { ctx with installation :=
      { ctx.installation with location := goJoin ctx.workDir (arg0 i) } }
  | _ => .error (("unimplemented instruction").data)

/-- The instruction loop of `install` (src/cmd/install.go lines 231-250),
abstracted over the per-instruction step (`RunWithContext`): the first
failure marks the context failed and stops; if every step succeeds the
context is marked completed. -/
def runInstructions
    (step : parser.Instruction → model.InstallationContext →
      Except GoError model.InstallationContext) :
    List parser.Instruction → model.InstallationContext → model.InstallationContext
  | [], ctx => model.MarkCompleted ctx
  | i :: rest, ctx =>
    match step i ctx with
    | .error e => model.MarkFailed e ctx
    | .ok c => runInstructions step rest c

/-- Sequential composition of the per-instruction step, used to speak about
the cumulative effect of a prefix of the instruction list. -/
def stepAll
    (step : parser.Instruction → model.InstallationContext →
      Except GoError model.InstallationContext) :
    List parser.Instruction → model.InstallationContext →
      Except GoError model.InstallationContext
  | [], ctx => .ok ctx
  | i :: rest, ctx =>
    match step i ctx with
    | .error e => .error e
    | .ok c => stepAll step rest c

end exec

namespace version

/-- Three-way comparison of Go ints, written from the claim's words
(ordered numerically). -/
def intCmp (a b : Int) : Int :=
  if a = b then 0 else if b < a then 1 else -1

/-- Three-way comparison of prerelease tags, written from the claim's
words: an empty tag orders above a nonempty one, and two differing tags are
ordered by plain lexicographic string comparison. -/
def preCmp (p q : List Char) : Int :=
  if p = [] ∧ q ≠ [] then 1
  else if p ≠ [] ∧ q = [] then -1
  else if p ≠ q then (if strGt p q then 1 else -1)
  else 0

/-- Lexicographic chaining of three-way comparisons. -/
def lexI (c d : Int) : Int :=
  if c = 0 then d else c

/-- The ordering stated by the claim: first by (major, minor, patch)
numerically, then by the prerelease rule; build metadata does not appear. -/
def compareSpec (v w : Version) : Int :=
  lexI (intCmp v.major w.major)
    (lexI (intCmp v.minor w.minor)
      (lexI (intCmp v.patch w.patch) (preCmp v.prerelease w.prerelease)))

/-- Lexicographic product of two three-way comparators. -/
def pairCmp {α β : Type} (f : α → α → Int) (g : β → β → Int) (p q : α × β) : Int :=
  lexI (f p.1 q.1) (g p.2 q.2)

/-- The components `Compare` actually reads, as a nested pair. -/
def toKey (v : Version) : (Int × Int) × (Int × List Char) :=
  ((v.major, v.minor), (v.patch, v.prerelease))

/-- The comparator on keys. -/
def keyCmp : ((Int × Int) × (Int × List Char)) → ((Int × Int) × (Int × List Char)) → Int :=
  pairCmp (pairCmp intCmp intCmp) (pairCmp intCmp preCmp)

/-- The laws making a three-way comparator a decidable linear order:
values in `{-1,0,1}`, antisymmetric swap, `0` exactly on equal arguments,
and transitivity of the strict part. -/
structure CmpLaws {α : Type} (f : α → α → Int) : Prop where
  range : ∀ a b, f a b = -1 ∨ f a b = 0 ∨ f a b = 1
  swap : ∀ a b, f b a = -(f a b)
  eq0 : ∀ a b, f a b = 0 → a = b
  refl : ∀ a, f a a = 0
  gtTrans : ∀ a b c, f a b = 1 → f b c = 1 → f a c = 1

end version

/-- The wildcard interpretation the claim states (spec §4.2 step 8), for
comparison against the source: `*` AND `X` replaced by `x` before
splitting. -/
def specWildcardXMatch (v : version.Version) (e : List Char) : Bool :=
  version.wildcardMatch v
    (splitAll '.' ((trimSpace e).map (fun c => if c = '*' ∨ c = 'X' then 'x' else c)))

/-- Candidate release `1.0.0` of the spec's resolver scenario. -/
def rel100 : db.Release := { version := ("1.0.0").data, releasedAt := 1 }

/-- Candidate release `1.2.0` of the spec's resolver scenario. -/
def rel120 : db.Release := { version := ("1.2.0").data, releasedAt := 2 }

/-- Candidate release `1.2.5` of the spec's resolver scenario. -/
def rel125 : db.Release := { version := ("1.2.5").data, releasedAt := 3 }

/-- Deprecated candidate release `2.0.0` of the spec's resolver scenario. -/
def rel200d : db.Release := { version := ("2.0.0").data, isDeprecated := true, releasedAt := 4 }

/-- The spec's resolver-scenario candidate list. -/
def specCandidates : List db.Release := [rel100, rel120, rel125, rel200d]

/-- A deprecated-only candidate list. -/
def depOnlyCandidates : List db.Release := [{ version := ("1.0.0").data, isDeprecated := true }]

/-- A malformed constraint expression. -/
def abcConstraint : List Char := ("abc").data

/-- A non-deprecated `1.0.0` released after `2.0.0` (for the latest-release
counterexample). -/
def relNew100 : db.Release := { version := ("1.0.0").data, releasedAt := 20 }

/-- A non-deprecated `2.0.0` released before `1.0.0`. -/
def relOld200 : db.Release := { version := ("2.0.0").data, releasedAt := 10 }

/-- Candidate list where the semantically greatest version is not the most
recently released one. -/
def staleCandidates : List db.Release := [relNew100, relOld200]

/-- Demonstration capabilities: every operation succeeds except `delete`,
and PATH registration returns the path it was given. -/
def capsDemo : exec.Caps :=
  { extractZip := fun _ _ => .ok []
    extractTar := fun _ _ => .ok []
    extractTarGz := fun _ _ => .ok []
    move := fun _ _ => .ok ()
    copy := fun _ _ => .ok ()
    delete := fun _ => .error (("disk error").data)
    makeExecutable := fun _ => .ok ()
    addToPath := fun p => .ok p }

/-- A `MOVE a b` instruction. -/
def instMove : parser.Instruction := ⟨.MOVE, [("a").data, ("b").data], ("MOVE a b").data, 1⟩

/-- A `DELETE x` instruction (fails under `capsDemo`). -/
def instDelete : parser.Instruction := ⟨.DELETE, [("x").data], ("DELETE x").data, 2⟩

/-- A `CHMOD y` instruction. -/
def instChmod : parser.Instruction := ⟨.CHMOD, [("y").data], ("CHMOD y").data, 3⟩

/-- An `ADD_TO_PATH bin` instruction. -/
def instAddPath : parser.Instruction :=
  ⟨.ADD_TO_PATH, [("bin").data], ("ADD_TO_PATH bin").data, 1⟩

/-- The demonstration installation context. -/
def ctxDemo : model.InstallationContext :=
  model.NewInstallationContext (("pkg").data) (("1.0.0").data) (("/w").data)

namespace version

theorem strGt_irrefl : ∀ a : List Char, strGt a a = false := by
  intro a
  induction a with
  | nil => rfl
  | cons c cs ih => simp [strGt, ih]

theorem strGt_asymm : ∀ a b : List Char, strGt a b = true → strGt b a = false := by
  intro a
  induction a with
  | nil => intro b h; cases b <;> simp [strGt] at h
  | cons c cs ih =>
    intro b h
    cases b with
    | nil => simp [strGt] at h ⊢
    | cons d ds =>
      simp only [strGt] at h ⊢
      by_cases h1 : c < d
      · simp [h1] at h
      · by_cases h2 : d < c
        · simp [h2]
        · have hcd : c = d := le_antisymm (not_lt.mp h2) (not_lt.mp h1)
          subst hcd
          simp only [if_neg h1, if_neg h2] at h ⊢
          exact ih ds h

theorem strGt_total : ∀ a b : List Char, a ≠ b → strGt a b = true ∨ strGt b a = true := by
  intro a
  induction a with
  | nil =>
    intro b hne
    cases b with
    | nil => exact absurd rfl hne
    | cons d ds => right; simp [strGt]
  | cons c cs ih =>
    intro b hne
    cases b with
    | nil => left; simp [strGt]
    | cons d ds =>
      simp only [strGt]
      by_cases h1 : c < d
      · right; simp [h1, asymm h1]
      · by_cases h2 : d < c
        · left; simp [h2, asymm h2]
        · have hcd : c = d := le_antisymm (not_lt.mp h2) (not_lt.mp h1)
          subst hcd
          have hne' : cs ≠ ds := by
            intro h; exact hne (by rw [h])
          simp only [if_neg h1, if_neg h2]
          exact ih ds hne'

theorem strGt_trans : ∀ a b c : List Char,
    strGt a b = true → strGt b c = true → strGt a c = true := by
  intro a
  induction a with
  | nil => intro b c h1; cases b <;> simp [strGt] at h1
  | cons x xs ih =>
    intro b c h1 h2
    cases b with
    | nil => cases c <;> simp [strGt] at h2
    | cons y ys =>
      cases c with
      | nil => simp [strGt]
      | cons z zs =>
        simp only [strGt] at h1 h2 ⊢
        by_cases hxy : x < y
        · simp [hxy] at h1
        · by_cases hyz : y < z
          · simp [hyz] at h2
          · by_cases hyx : y < x
            · -- x > y ≥ z
              by_cases hzy : z < y
              · have hzx : z < x := lt_trans hzy hyx
                simp [asymm hzx, hzx]
              · have hyz' : y = z := le_antisymm (not_lt.mp hzy) (not_lt.mp hyz)
                subst hyz'
                simp [asymm hyx, hyx]
            · have hxy' : x = y := le_antisymm (not_lt.mp hyx) (not_lt.mp hxy)
              subst hxy'
              by_cases hzy : z < x
              · simp [asymm hzy, hzy]
              · have hyz' : x = z := le_antisymm (not_lt.mp hzy) (not_lt.mp hyz)
                subst hyz'
                simp only [if_neg hxy, if_neg hyx] at h1 h2 ⊢
                exact ih ys zs h1 h2

theorem lawsIntCmp : CmpLaws intCmp := by
  constructor
  · intro a b; unfold intCmp; split_ifs <;> simp
  · intro a b; unfold intCmp; split_ifs <;> omega
  · intro a b h; unfold intCmp at h; split_ifs at h <;> omega
  · intro a; simp [intCmp]
  · intro a b c h1 h2; unfold intCmp at h1 h2 ⊢; split_ifs at h1 h2 ⊢ <;> omega

theorem preCmp_eq_one_iff (p q : List Char) :
    preCmp p q = 1 ↔ (p = [] ∧ q ≠ []) ∨ (p ≠ [] ∧ q ≠ [] ∧ p ≠ q ∧ strGt p q = true) := by
  unfold preCmp
  split_ifs with h1 h2 h3 h4
  · simp [h1]
  · simp [h2]
  · have hp : p ≠ [] := by
      intro hp
      by_cases hq : q = []
      · exact h3 (by rw [hp, hq])
      · exact h1 ⟨hp, hq⟩
    have hq : q ≠ [] := by
      intro hq
      exact h2 ⟨hp, hq⟩
    simp [hp, hq, h3, h4]
  · have hp : p ≠ [] := by
      intro hp
      by_cases hq : q = []
      · exact h3 (by rw [hp, hq])
      · exact h1 ⟨hp, hq⟩
    simp [hp, h4, h3]
  · have hpq : p = q := not_not.mp h3
    subst hpq
    simp [strGt_irrefl]

theorem lawsPreCmp : CmpLaws preCmp := by
  constructor
  · intro a b; unfold preCmp; split_ifs <;> simp
  · intro a b
    unfold preCmp
    by_cases ha : a = []
    · by_cases hb : b = []
      · subst ha; subst hb; simp
      · subst ha; simp [hb]
    · by_cases hb : b = []
      · subst hb; simp [ha]
      · by_cases hab : a = b
        · subst hab; simp
        · have hba : b ≠ a := fun h => hab h.symm
          rcases strGt_total a b hab with h | h
          · simp [ha, hb, hab, hba, h, strGt_asymm a b h]
          · simp [ha, hb, hab, hba, h, strGt_asymm b a h]
  · intro a b h
    unfold preCmp at h
    by_cases hab : a = b
    · exact hab
    · exfalso
      split_ifs at h <;> exact absurd h (by norm_num)
  · intro a
    unfold preCmp
    simp
  · intro a b c h1 h2
    rw [preCmp_eq_one_iff] at h1 h2 ⊢
    rcases h1 with ⟨ha, hb⟩ | ⟨ha, hb, hab, hg1⟩
    · rcases h2 with ⟨hb2, hc⟩ | ⟨hb2, hc, hbc, hg2⟩
      · exact absurd hb2 hb
      · exact Or.inl ⟨ha, hc⟩
    · rcases h2 with ⟨hb2, hc⟩ | ⟨hb2, hc, hbc, hg2⟩
      · exact absurd hb2 hb
      · have hg3 : strGt a c = true := strGt_trans a b c hg1 hg2
        have hac : a ≠ c := by
          intro h
          have hf2 := strGt_asymm b c hg2
          rw [h] at hg1
          rw [hf2] at hg1
          exact Bool.noConfusion hg1
        exact Or.inr ⟨ha, hc, hac, hg3⟩

theorem lawsPair {α β : Type} {f : α → α → Int} {g : β → β → Int}
    (hf : CmpLaws f) (hg : CmpLaws g) : CmpLaws (pairCmp f g) := by
  constructor
  · intro a b
    unfold pairCmp lexI
    split_ifs with h
    · exact hg.range a.2 b.2
    · exact (hf.range a.1 b.1).elim (fun h1 => Or.inl h1)
        (fun h1 => h1.elim (fun h2 => absurd h2 h) (fun h2 => Or.inr (Or.inr h2)))
  · intro a b
    unfold pairCmp lexI
    rw [hf.swap a.1 b.1, hg.swap a.2 b.2]
    split_ifs with h1 h2 h2
    · rfl
    · exact absurd (neg_eq_zero.mp h1) h2
    · exact absurd (by rw [h2, neg_zero]) h1
    · rfl
  · intro a b h
    unfold pairCmp lexI at h
    split_ifs at h with h1
    · have e1 := hf.eq0 a.1 b.1 h1
      have e2 := hg.eq0 a.2 b.2 h
      exact Prod.ext e1 e2
    · exact absurd h h1
  · intro a
    unfold pairCmp lexI
    rw [hf.refl a.1]
    simp [hg.refl a.2]
  · intro a b c h1 h2
    unfold pairCmp lexI at h1 h2 ⊢
    by_cases hab : f a.1 b.1 = 0
    · have e := hf.eq0 a.1 b.1 hab
      rw [if_pos hab] at h1
      by_cases hbc : f b.1 c.1 = 0
      · rw [if_pos hbc] at h2
        have h0 : f a.1 c.1 = 0 := by rw [e]; exact hbc
        rw [if_pos h0]
        exact hg.gtTrans a.2 b.2 c.2 h1 h2
      · rw [if_neg hbc] at h2
        have heq : f a.1 c.1 = f b.1 c.1 := by rw [e]
        rw [heq, if_neg hbc]
        exact h2
    · rw [if_neg hab] at h1
      by_cases hbc : f b.1 c.1 = 0
      · have e := hf.eq0 b.1 c.1 hbc
        have heq : f a.1 c.1 = f a.1 b.1 := by rw [← e]
        rw [heq, if_neg hab]
        exact h1
      · rw [if_neg hbc] at h2
        have hac := hf.gtTrans a.1 b.1 c.1 h1 h2
        have hne : ¬ f a.1 c.1 = 0 := by rw [hac]; norm_num
        rw [if_neg hne]
        exact hac

theorem lawsKeyCmp : CmpLaws keyCmp :=
  lawsPair (lawsPair lawsIntCmp lawsIntCmp) (lawsPair lawsIntCmp lawsPreCmp)

theorem lexI_assoc (a b c : Int) : lexI (lexI a b) c = lexI a (lexI b c) := by
  unfold lexI
  by_cases h1 : a = 0 <;> simp [h1]

theorem compare_eq_compareSpec (v w : Version) : Compare v w = compareSpec v w := by
  have hpm : ∀ p : Prop, ∀ inst : Decidable p, ¬ ((if p then (1 : Int) else -1) = 0) := by
    intro p inst
    split_ifs <;> norm_num
  unfold Compare compareSpec lexI intCmp preCmp
  by_cases h1 : v.major = w.major
  · by_cases h2 : v.minor = w.minor
    · by_cases h3 : v.patch = w.patch
      · simp [h1, h2, h3]
      · simp [h1, h2, h3, hpm]
    · simp [h1, h2, hpm]
  · simp [h1, hpm]

theorem compareSpec_eq_keyCmp (v w : Version) :
    compareSpec v w = keyCmp (toKey v) (toKey w) := by
  unfold compareSpec keyCmp pairCmp toKey
  rw [lexI_assoc]

theorem compare_eq_keyCmp (v w : Version) : Compare v w = keyCmp (toKey v) (toKey w) := by
  rw [compare_eq_compareSpec, compareSpec_eq_keyCmp]

theorem gtV_iff (v w : Version) : GreaterThan v w = true ↔ keyCmp (toKey v) (toKey w) = 1 := by
  unfold GreaterThan
  rw [compare_eq_keyCmp]
  rcases lawsKeyCmp.range (toKey v) (toKey w) with h | h | h <;> rw [h] <;> simp

theorem gtV_trans {a b c : Version} (h1 : GreaterThan a b = true)
    (h2 : GreaterThan b c = true) : GreaterThan a c = true := by
  rw [gtV_iff] at h1 h2 ⊢
  exact lawsKeyCmp.gtTrans _ _ _ h1 h2

theorem ngtV_trans {a b c : Version} (h1 : GreaterThan a b = false)
    (h2 : GreaterThan b c = false) : GreaterThan a c = false := by
  have n1 : ¬ keyCmp (toKey a) (toKey b) = 1 := by
    intro h; rw [← gtV_iff] at h; rw [h1] at h; exact Bool.noConfusion h
  have n2 : ¬ keyCmp (toKey b) (toKey c) = 1 := by
    intro h; rw [← gtV_iff] at h; rw [h2] at h; exact Bool.noConfusion h
  have : ¬ keyCmp (toKey a) (toKey c) = 1 := by
    intro hac
    rcases lawsKeyCmp.range (toKey a) (toKey b) with h | h | h
    · rcases lawsKeyCmp.range (toKey b) (toKey c) with g | g | g
      · -- a < b, b < c, a > c: c > b via swap of g? derive contradiction
        have sac : keyCmp (toKey c) (toKey a) = -1 := by
          have := lawsKeyCmp.swap (toKey a) (toKey c)
          rw [hac] at this
          simpa using this
        have sab : keyCmp (toKey b) (toKey a) = 1 := by
          have := lawsKeyCmp.swap (toKey a) (toKey b)
          rw [h] at this
          simpa using this
        have scb : keyCmp (toKey c) (toKey b) = 1 := by
          have := lawsKeyCmp.swap (toKey b) (toKey c)
          rw [g] at this
          simpa using this
        have := lawsKeyCmp.gtTrans (toKey c) (toKey b) (toKey a) scb sab
        rw [sac] at this
        norm_num at this
      · have e := lawsKeyCmp.eq0 (toKey b) (toKey c) g
        rw [← e] at hac
        have sab : keyCmp (toKey b) (toKey a) = 1 := by
          have := lawsKeyCmp.swap (toKey a) (toKey b)
          rw [h] at this
          simpa using this
        rw [hac] at h
        norm_num at h
      · exact n2 g
    · have e := lawsKeyCmp.eq0 (toKey a) (toKey b) h
      rw [e] at hac
      exact n2 hac
    · exact n1 h
  rcases lawsKeyCmp.range (toKey a) (toKey c) with h | h | h
  · unfold GreaterThan
    rw [compare_eq_keyCmp, h]
    simp
  · unfold GreaterThan
    rw [compare_eq_keyCmp, h]
    simp
  · exact absurd h this

theorem compare_self (v : Version) : Compare v v = 0 := by
  rw [compare_eq_keyCmp]
  exact lawsKeyCmp.refl (toKey v)

end version

namespace version

/-- `containsChar` is membership. -/
theorem containsChar_iff_mem {s : List Char} {a : Char} :
    containsChar s a = true ↔ a ∈ s := by
  unfold containsChar
  simp [List.any_eq_true]

/-- A string containing a member of the set satisfies `containsAny`. -/
theorem containsAny_of_mem {s set : List Char} {a : Char}
    (h1 : containsChar s a = true) (h2 : a ∈ set) : containsAny s set = true := by
  unfold containsAny
  rw [containsChar_iff_mem] at h1
  simp only [List.any_eq_true, decide_eq_true_eq]
  exact ⟨a, h1, a, h2, rfl⟩

/-- A string whose head is not an operator does not start with an
operator-headed prefix. -/
theorem not_starts_of_headOpFree {e : List Char} {c0 : Char} {p : List Char}
    (hop : headOpFree e = true) (hc : c0 = '>' ∨ c0 = '<' ∨ c0 = '^' ∨ c0 = '~') :
    startsList e (c0 :: p) = false := by
  cases e with
  | nil => rfl
  | cons a as =>
    simp only [headOpFree, Bool.not_eq_true', Bool.or_eq_false_iff,
      decide_eq_false_iff_not] at hop
    simp only [startsList, Bool.and_eq_false_iff, decide_eq_false_iff_not]
    left
    intro hac
    subst hac
    rcases hc with h | h | h | h
    · exact hop.1.1.1 h
    · exact hop.1.1.2 h
    · exact hop.1.2 h
    · exact hop.2 h

end version

namespace version

/-- C4: `Compare` orders two versions first by (major, minor, patch)
numerically, then ranks an absent prerelease tag above a present one, then
orders differing prerelease tags by plain lexicographic string comparison
(the `compareSpec` comparator, written from the claim); and neither build
metadata nor the retained raw text affects `Compare` or `Equal`. -/
theorem c4_compare_ordering (v w : Version) :
    Compare v w = compareSpec v w
    ∧ (∀ b1 b2 r1 r2 : List Char,
        Compare { v with build := b1, raw := r1 } { w with build := b2, raw := r2 }
          = Compare v w
        ∧ Equal { v with build := b1, raw := r1 } { w with build := b2, raw := r2 }
          = Equal v w) := by
  cases v
  cases w
  exact ⟨compare_eq_compareSpec _ _, fun b1 b2 r1 r2 => ⟨rfl, rfl⟩⟩

/-- C10: exact self-matching is not reflexive: the version parsed from
`1.2.3-xyz` renders back to the same string, that string contains a bare
`x`, so `IsCompatible` routes it to the wildcard rule rather than the
exact-equality rule (which would hold, since `Equal` is reflexive here) and
returns `false`. -/
theorem c10_exact_self_match_not_reflexive :
    Parse (("1.2.3-xyz").data) = .ok ⟨1, 2, 3, ("xyz").data, [], ("1.2.3-xyz").data⟩
    ∧ VersionString ⟨1, 2, 3, ("xyz").data, [], ("1.2.3-xyz").data⟩ = ("1.2.3-xyz").data
    ∧ containsChar (("1.2.3-xyz").data) 'x' = true
    ∧ Equal ⟨1, 2, 3, ("xyz").data, [], ("1.2.3-xyz").data⟩
        ⟨1, 2, 3, ("xyz").data, [], ("1.2.3-xyz").data⟩ = true
    ∧ IsCompatible ⟨1, 2, 3, ("xyz").data, [], ("1.2.3-xyz").data⟩ (("1.2.3-xyz").data)
        = .ok false := by
  refine ⟨by decide, by decide, by decide, by decide, by decide⟩

/-- C5 (amended): for every constraint whose trimmed text contains a bare
`x` or a `*` and does not start with `>`, `<`, `^`, or `~`, `IsCompatible`
evaluates the wildcard rule: `*` (but not `X`) is replaced by `x`, the
constraint is split on `.`, and each of the first three positions that is
present and not `x` must equal the corresponding component (a non-numeric
position is compared as `0`, since `Atoi`'s error is ignored); positions
marked `x` or omitted match anything. -/
theorem c5_wildcard_evaluation (v : Version) (e : List Char)
    (hx : containsChar (trimSpace e) 'x' = true ∨ containsChar (trimSpace e) '*' = true)
    (hop : headOpFree (trimSpace e) = true) :
    IsCompatible v e = .ok (wildcardMatch v (splitAll '.' (starToX (trimSpace e)))) := by
  have hca : containsAny (trimSpace e) opChars = true := by
    rcases hx with h | h
    · exact containsAny_of_mem h (by decide)
    · exact containsAny_of_mem h (by decide)
  have h1 : startsList (trimSpace e) ('>' :: '=' :: []) = false :=
    not_starts_of_headOpFree hop (Or.inl rfl)
  have h2 : startsList (trimSpace e) ('>' :: []) = false :=
    not_starts_of_headOpFree hop (Or.inl rfl)
  have h3 : startsList (trimSpace e) ('<' :: '=' :: []) = false :=
    not_starts_of_headOpFree hop (Or.inr (Or.inl rfl))
  have h4 : startsList (trimSpace e) ('<' :: []) = false :=
    not_starts_of_headOpFree hop (Or.inr (Or.inl rfl))
  have h5 : startsList (trimSpace e) ('^' :: []) = false :=
    not_starts_of_headOpFree hop (Or.inr (Or.inr (Or.inl rfl)))
  have h6 : startsList (trimSpace e) ('~' :: []) = false :=
    not_starts_of_headOpFree hop (Or.inr (Or.inr (Or.inr rfl)))
  have hw : (containsChar (trimSpace e) 'x' || containsChar (trimSpace e) '*') = true := by
    rcases hx with h | h <;> simp [h]
  unfold IsCompatible
  simp only [hca, h1, h2, h3, h4, h5, h6, hw, Bool.true_eq_false, if_false,
    Bool.false_eq_true, if_true]

end version

/-- C5 counterexample: the claim says `X` is a wildcard marker, so
`1.2.3` should satisfy `1.2.X` (the claim-side interpretation
`specWildcardXMatch` returns `true`); the source never replaces `X`,
routes `1.2.X` to the exact branch (its operator scan knows only
lower-case `x`), and fails parsing `X` as the patch component. -/
theorem c5_counterexample :
    specWildcardXMatch ⟨1, 2, 3, [], [], ("1.2.3").data⟩ (("1.2.X").data) = true
    ∧ version.IsCompatible ⟨1, 2, 3, [], [], ("1.2.3").data⟩ (("1.2.X").data)
        = .error (version.invalidPatchMsg (("X").data)) := by
  refine ⟨by decide, by decide⟩

/-- C5 witness: the amended wildcard theorem applied to version `1.2.3` and
constraint `1.2.x`, whose wildcard evaluation yields `true`. -/
theorem c5_witness :
    (containsChar (trimSpace (("1.2.x").data)) 'x' = true
      ∨ containsChar (trimSpace (("1.2.x").data)) '*' = true)
    ∧ version.headOpFree (trimSpace (("1.2.x").data)) = true
    ∧ version.IsCompatible ⟨1, 2, 3, [], [], ("1.2.3").data⟩ (("1.2.x").data)
        = .ok (version.wildcardMatch ⟨1, 2, 3, [], [], ("1.2.3").data⟩
            (splitAll '.' (version.starToX (trimSpace (("1.2.x").data))))) :=
  ⟨Or.inl (by decide), by decide,
    version.c5_wildcard_evaluation ⟨1, 2, 3, [], [], ("1.2.3").data⟩ (("1.2.x").data)
      (Or.inl (by decide)) (by decide)⟩

theorem splitOnFirst_fst_not_mem (c : Char) : ∀ s : List Char, c ∉ (splitOnFirst c s).1 := by
  intro s
  induction s with
  | nil => simp [splitOnFirst]
  | cons a as ih =>
    by_cases h : a = c
    · simp [splitOnFirst, h]
    · simp only [splitOnFirst, if_neg h]
      intro hmem
      rcases List.mem_cons.mp hmem with h1 | h1
      · exact h h1.symm
      · exact ih h1

theorem splitOnFirst_fst_sub (c : Char) : ∀ s : List Char, ∀ x ∈ (splitOnFirst c s).1, x ∈ s := by
  intro s
  induction s with
  | nil => simp [splitOnFirst]
  | cons a as ih =>
    by_cases h : a = c
    · simp [splitOnFirst, h]
    · simp only [splitOnFirst, if_neg h]
      intro x hx
      rcases List.mem_cons.mp hx with h1 | h1
      · exact List.mem_cons.mpr (Or.inl h1)
      · exact List.mem_cons.mpr (Or.inr (ih x h1))

theorem splitOnFirst_snd_none (c : Char) : ∀ s : List Char,
    (splitOnFirst c s).2 = none → (splitOnFirst c s).1 = s := by
  intro s
  induction s with
  | nil => simp [splitOnFirst]
  | cons a as ih =>
    by_cases h : a = c
    · simp [splitOnFirst, h]
    · simp only [splitOnFirst, if_neg h]
      intro h2
      rw [ih h2]

theorem splitOnFirst_snd_some (c : Char) : ∀ s q : List Char,
    (splitOnFirst c s).2 = some q → s = (splitOnFirst c s).1 ++ c :: q := by
  intro s
  induction s with
  | nil => simp [splitOnFirst]
  | cons a as ih =>
    by_cases h : a = c
    · subst h
      intro q hq
      simp only [splitOnFirst, if_pos rfl] at hq ⊢
      injection hq with h2
      rw [h2]
      simp
    · simp only [splitOnFirst, if_neg h]
      intro q hq
      have := ih q hq
      simp only [List.cons_append]
      rw [← this]

theorem splitOnFirst_not_mem {c : Char} {s : List Char} (h : c ∉ s) :
    splitOnFirst c s = (s, none) := by
  induction s with
  | nil => rfl
  | cons a as ih =>
    have ha : a ≠ c := fun he => h (he ▸ List.mem_cons_self a as)
    have has : c ∉ as := fun hm => h (List.mem_cons.mpr (Or.inr hm))
    simp [splitOnFirst, ha, ih has]

theorem splitOnFirst_append {c : Char} {a b : List Char} (h : c ∉ a) :
    splitOnFirst c (a ++ c :: b) = (a, some b) := by
  induction a with
  | nil => simp [splitOnFirst]
  | cons x xs ih =>
    have hx : x ≠ c := fun he => h (he ▸ List.mem_cons_self x xs)
    have hxs : c ∉ xs := fun hm => h (List.mem_cons.mpr (Or.inr hm))
    simp [splitOnFirst, hx, ih hxs]

theorem splitAll_not_mem {c : Char} {a : List Char} (h : c ∉ a) :
    splitAll c a = [a] := by
  induction a with
  | nil => rfl
  | cons x xs ih =>
    have hx : x ≠ c := fun he => h (he ▸ List.mem_cons_self x xs)
    have hxs : c ∉ xs := fun hm => h (List.mem_cons.mpr (Or.inr hm))
    simp [splitAll, hx, ih hxs]

theorem splitAll_append {c : Char} {a b : List Char} (h : c ∉ a) :
    splitAll c (a ++ c :: b) = a :: splitAll c b := by
  induction a with
  | nil => simp [splitAll]
  | cons x xs ih =>
    have hx : x ≠ c := fun he => h (he ▸ List.mem_cons_self x xs)
    have hxs : c ∉ xs := fun hm => h (List.mem_cons.mpr (Or.inr hm))
    rw [List.cons_append]
    simp only [splitAll, if_neg hx, ih hxs]

theorem splitAll_sub (c : Char) : ∀ s : List Char, ∀ p ∈ splitAll c s, ∀ x ∈ p, x ∈ s := by
  intro s
  induction s with
  | nil =>
    intro p hp x hx
    simp [splitAll] at hp
    rw [hp] at hx
    simp at hx
  | cons a as ih =>
    intro p hp x hx
    by_cases h : a = c
    · simp only [splitAll, if_pos h] at hp
      rcases List.mem_cons.mp hp with h1 | h1
      · rw [h1] at hx; simp at hx
      · exact List.mem_cons.mpr (Or.inr (ih p h1 x hx))
    · simp only [splitAll, if_neg h] at hp
      cases hsa : splitAll c as with
      | nil =>
        rw [hsa] at hp
        simp at hp
        rw [hp] at hx
        simp at hx
        rw [hx]
        exact List.mem_cons_self a as
      | cons q qs =>
        rw [hsa] at hp
        rcases List.mem_cons.mp hp with h1 | h1
        · rw [h1] at hx
          rcases List.mem_cons.mp hx with h2 | h2
          · exact List.mem_cons.mpr (Or.inl h2)
          · exact List.mem_cons.mpr (Or.inr (ih q (hsa ▸ List.mem_cons_self q qs) x h2))
        · exact List.mem_cons.mpr (Or.inr (ih p (hsa ▸ List.mem_cons.mpr (Or.inr h1)) x hx))

theorem digitChar_toNat : ∀ d : Nat, d < 10 → (digitChar d).toNat = 48 + d := by decide

theorem digitChar_isDigit : ∀ d : Nat, d < 10 → isDigitChar (digitChar d) = true := by decide

theorem natToCharsAux_fuel : ∀ f g n : Nat, n < f → n < g →
    natToCharsAux f n = natToCharsAux g n := by
  intro f
  induction f with
  | zero => intro g n hf; omega
  | succ f ihf =>
    intro g n hf hg
    cases g with
    | zero => omega
    | succ g =>
      simp only [natToCharsAux]
      by_cases h : n < 10
      · simp [h]
      · have h1 : n / 10 < f := by omega
        have h2 : n / 10 < g := by omega
        simp only [if_neg h]
        rw [ihf g (n / 10) h1 h2]

theorem natToChars_unfold_ge (n : Nat) (h : ¬ n < 10) :
    natToChars n = natToChars (n / 10) ++ [digitChar (n % 10)] := by
  unfold natToChars
  rw [natToCharsAux]
  simp only [if_neg h]
  rw [natToCharsAux_fuel n (n / 10 + 1) (n / 10) (by omega) (by omega)]

theorem natToChars_lt (n : Nat) (h : n < 10) : natToChars n = [digitChar n] := by
  unfold natToChars
  rw [natToCharsAux]
  simp [h]

theorem natToChars_ne_nil (n : Nat) : natToChars n ≠ [] := by
  by_cases h : n < 10
  · rw [natToChars_lt n h]; simp
  · rw [natToChars_unfold_ge n h]; simp

theorem natToChars_all_digits (n : Nat) : ∀ c ∈ natToChars n, isDigitChar c = true := by
  induction n using Nat.strong_induction_on with
  | _ n ih =>
    by_cases h : n < 10
    · rw [natToChars_lt n h]
      intro c hc
      simp at hc
      rw [hc]
      exact digitChar_isDigit n h
    · rw [natToChars_unfold_ge n h]
      intro c hc
      rcases List.mem_append.mp hc with h1 | h1
      · exact ih (n / 10) (by omega) c h1
      · simp at h1
        rw [h1]
        exact digitChar_isDigit (n % 10) (Nat.mod_lt n (by omega))

theorem parseDigitsAux_snoc (ch : Char) : ∀ l : List Char, ∀ acc : Nat,
    parseDigitsAux acc (l ++ [ch]) =
      match parseDigitsAux acc l with
      | some m => if isDigitChar ch then some (m * 10 + (ch.toNat - 48)) else none
      | none => none := by
  intro l
  induction l with
  | nil =>
    intro acc
    simp only [List.nil_append, parseDigitsAux]
  | cons c cs ih =>
    intro acc
    simp only [List.cons_append, parseDigitsAux]
    by_cases h : isDigitChar c
    · simp only [if_pos h]
      exact ih _
    · simp [h]

theorem parseDigits_snoc {l : List Char} (ch : Char) (hne : l ≠ []) :
    parseDigits (l ++ [ch]) =
      match parseDigits l with
      | some m => if isDigitChar ch then some (m * 10 + (ch.toNat - 48)) else none
      | none => none := by
  cases l with
  | nil => exact absurd rfl hne
  | cons c cs =>
    simp only [List.cons_append, parseDigits]
    by_cases h : isDigitChar c
    · simp only [if_pos h]
      exact parseDigitsAux_snoc ch cs _
    · simp [h]

theorem parseDigits_natToChars (n : Nat) : parseDigits (natToChars n) = some n := by
  induction n using Nat.strong_induction_on with
  | _ n ih =>
    by_cases h : n < 10
    · rw [natToChars_lt n h]
      simp only [parseDigits, parseDigitsAux, digitChar_isDigit n h, if_true,
        digitChar_toNat n h]
      congr 1
      omega
    · rw [natToChars_unfold_ge n h]
      rw [parseDigits_snoc _ (natToChars_ne_nil (n / 10))]
      rw [ih (n / 10) (by omega)]
      have h10 : n % 10 < 10 := Nat.mod_lt n (by omega)
      simp only [digitChar_isDigit (n % 10) h10, if_true, digitChar_toNat (n % 10) h10]
      congr 1
      omega

theorem isDigit_ne_special {c : Char} (h : isDigitChar c = true) :
    c ≠ '+' ∧ c ≠ '-' ∧ c ≠ '.' ∧ c ≠ 'v' ∧ c ≠ 'V' := by
  refine ⟨?_, ?_, ?_, ?_, ?_⟩ <;> intro he <;> rw [he] at h <;> exact absurd h (by decide)

theorem natToChars_no_special (n : Nat) :
    '+' ∉ natToChars n ∧ '-' ∉ natToChars n ∧ '.' ∉ natToChars n := by
  refine ⟨?_, ?_, ?_⟩ <;> intro hm
  · exact (isDigit_ne_special (natToChars_all_digits n _ hm)).1 rfl
  · exact (isDigit_ne_special (natToChars_all_digits n _ hm)).2.1 rfl
  · exact (isDigit_ne_special (natToChars_all_digits n _ hm)).2.2.1 rfl

theorem atoi_natToChars (n : Nat) : atoi (natToChars n) = some (Int.ofNat n) := by
  cases hl : natToChars n with
  | nil => exact absurd hl (natToChars_ne_nil n)
  | cons c cs =>
    have hcd : isDigitChar c = true :=
      natToChars_all_digits n c (hl ▸ List.mem_cons_self c cs)
    have hsp := isDigit_ne_special hcd
    simp only [atoi, if_neg hsp.1, if_neg hsp.2.1]
    rw [← hl, parseDigits_natToChars n]
    rfl

theorem atoi_nonneg {p : List Char} {m : Int}
    (hplus : '+' ∉ p) (hminus : '-' ∉ p) (h : atoi p = some m) : 0 ≤ m := by
  cases p with
  | nil => simp [atoi] at h
  | cons c cs =>
    have hc1 : c ≠ '+' := fun he => hplus (he ▸ List.mem_cons_self c cs)
    have hc2 : c ≠ '-' := fun he => hminus (he ▸ List.mem_cons_self c cs)
    simp only [atoi, if_neg hc1, if_neg hc2, Option.map_eq_some'] at h
    obtain ⟨k, _, hk⟩ := h
    rw [← hk]
    exact Int.ofNat_nonneg k

namespace version

theorem parse_good {s : List Char} {v : Version} (h : Parse s = .ok v) : goodVersion v := by
  simp only [Parse] at h
  set T := trimLeadChar 'V' (trimLeadChar 'v' s) with hT
  set P1 := (splitOnFirst '+' T).1 with hP1
  set C2 := (splitOnFirst '-' P1).1 with hC2
  have hpP1 : '+' ∉ P1 := splitOnFirst_fst_not_mem '+' T
  have hmC2 : '-' ∉ C2 := splitOnFirst_fst_not_mem '-' P1
  have hpC2 : '+' ∉ C2 := fun hm => hpP1 (splitOnFirst_fst_sub '-' P1 '+' hm)
  have hpre : '+' ∉ ((splitOnFirst '-' P1).2).getD [] := by
    cases hq : (splitOnFirst '-' P1).2 with
    | none => simp
    | some q =>
      simp only [Option.getD_some]
      intro hm
      apply hpP1
      rw [splitOnFirst_snd_some '-' P1 q hq]
      exact List.mem_append.mpr (Or.inr (List.mem_cons.mpr (Or.inr hm)))
  have hsub : ∀ p ∈ splitAll '.' C2, '+' ∉ p ∧ '-' ∉ p := by
    intro p hp
    constructor
    · intro hm; exact hpC2 (splitAll_sub '.' C2 p hp '+' hm)
    · intro hm; exact hmC2 (splitAll_sub '.' C2 p hp '-' hm)
  split at h
  next p0 heq =>
    have hp0 : p0 ∈ splitAll '.' C2 := by rw [heq]; exact List.mem_cons_self _ _
    split at h
    next => simp at h
    next maj hat =>
      simp only [Except.ok.injEq] at h
      rw [← h]
      exact ⟨atoi_nonneg (hsub p0 hp0).1 (hsub p0 hp0).2 hat, by norm_num, by norm_num, hpre⟩
  next p0 p1 heq =>
    have hp0 : p0 ∈ splitAll '.' C2 := by rw [heq]; exact List.mem_cons_self _ _
    have hp1 : p1 ∈ splitAll '.' C2 := by
      rw [heq]; exact List.mem_cons.mpr (Or.inr (List.mem_cons_self _ _))
    split at h
    next => simp at h
    next maj hat =>
      split at h
      next => simp at h
      next mino hat1 =>
        simp only [Except.ok.injEq] at h
        rw [← h]
        exact ⟨atoi_nonneg (hsub p0 hp0).1 (hsub p0 hp0).2 hat,
          atoi_nonneg (hsub p1 hp1).1 (hsub p1 hp1).2 hat1, by norm_num, hpre⟩
  next p0 p1 p2 heq =>
    have hp0 : p0 ∈ splitAll '.' C2 := by rw [heq]; exact List.mem_cons_self _ _
    have hp1 : p1 ∈ splitAll '.' C2 := by
      rw [heq]; exact List.mem_cons.mpr (Or.inr (List.mem_cons_self _ _))
    have hp2 : p2 ∈ splitAll '.' C2 := by
      rw [heq]
      exact List.mem_cons.mpr (Or.inr (List.mem_cons.mpr (Or.inr (List.mem_cons_self _ _))))
    split at h
    next => simp at h
    next maj hat =>
      split at h
      next => simp at h
      next mino hat1 =>
        split at h
        next => simp at h
        next pat hat2 =>
          simp only [Except.ok.injEq] at h
          rw [← h]
          exact ⟨atoi_nonneg (hsub p0 hp0).1 (hsub p0 hp0).2 hat,
            atoi_nonneg (hsub p1 hp1).1 (hsub p1 hp1).2 hat1,
            atoi_nonneg (hsub p2 hp2).1 (hsub p2 hp2).2 hat2, hpre⟩
  next => simp at h

end version

namespace version

theorem parse_canonical (n1 n2 n3 : Nat) (pre build : List Char) (hpre : '+' ∉ pre) :
    Parse (natToChars n1 ++ '.' :: natToChars n2 ++ '.' :: natToChars n3 ++
        (if pre ≠ [] then '-' :: pre else []) ++ (if build ≠ [] then '+' :: build else []))
      = .ok ⟨Int.ofNat n1, Int.ofNat n2, Int.ofNat n3, pre, build,
          natToChars n1 ++ '.' :: natToChars n2 ++ '.' :: natToChars n3 ++
            (if pre ≠ [] then '-' :: pre else []) ++ (if build ≠ [] then '+' :: build else [])⟩ := by
  have hd1 := natToChars_no_special n1
  have hd2 := natToChars_no_special n2
  have hd3 := natToChars_no_special n3
  obtain ⟨c0, cs0, hc0⟩ := List.exists_cons_of_ne_nil (natToChars_ne_nil n1)
  have hc0d : isDigitChar c0 = true :=
    natToChars_all_digits n1 c0 (by rw [hc0]; exact List.mem_cons_self _ _)
  have hc0s := isDigit_ne_special hc0d
  have htrimZ : ∀ Z : List Char,
      trimLeadChar 'V' (trimLeadChar 'v' (natToChars n1 ++ Z)) = natToChars n1 ++ Z := by
    intro Z
    rw [hc0, List.cons_append]
    simp [trimLeadChar, hc0s.2.2.2.1, hc0s.2.2.2.2]
  have hAplus : '+' ∉ natToChars n1 ++ '.' :: (natToChars n2 ++ '.' :: natToChars n3) := by
    intro hm
    simp only [List.mem_append, List.mem_cons] at hm
    rcases hm with h | h | h | h | h
    · exact hd1.1 h
    · exact absurd h (by decide)
    · exact hd2.1 h
    · exact absurd h (by decide)
    · exact hd3.1 h
  have hAminus : '-' ∉ natToChars n1 ++ '.' :: (natToChars n2 ++ '.' :: natToChars n3) := by
    intro hm
    simp only [List.mem_append, List.mem_cons] at hm
    rcases hm with h | h | h | h | h
    · exact hd1.2.1 h
    · exact absurd h (by decide)
    · exact hd2.2.1 h
    · exact absurd h (by decide)
    · exact hd3.2.1 h
  have hsA : splitAll '.' (natToChars n1 ++ '.' :: (natToChars n2 ++ '.' :: natToChars n3))
      = [natToChars n1, natToChars n2, natToChars n3] := by
    rw [splitAll_append hd1.2.2, splitAll_append hd2.2.2, splitAll_not_mem hd3.2.2]
  have hSplus : '+' ∉ (natToChars n1 ++ '.' :: (natToChars n2 ++ '.' :: natToChars n3))
      ++ '-' :: pre := by
    intro hm
    rcases List.mem_append.mp hm with h | h
    · exact hAplus h
    · rcases List.mem_cons.mp h with h | h
      · exact absurd h (by decide)
      · exact hpre h
  by_cases hpe : pre = []
  · by_cases hbe : build = []
    · subst hpe
      subst hbe
      simp only [ne_eq, not_true_eq_false, if_false, List.append_nil]
      simp only [Parse]
      simp only [List.cons_append, List.append_assoc, List.nil_append]
      rw [htrimZ ('.' :: (natToChars n2 ++ '.' :: natToChars n3))]
      rw [splitOnFirst_not_mem hAplus]
      simp only []
      rw [splitOnFirst_not_mem hAminus]
      simp only []
      rw [hsA]
      simp only [atoi_natToChars]
      rfl
    · subst hpe
      simp only [ne_eq, not_true_eq_false, if_false, List.nil_append, hbe,
        not_false_iff, if_true]
      simp only [Parse]
      simp only [List.cons_append, List.append_assoc, List.nil_append]
      rw [htrimZ ('.' :: (natToChars n2 ++ '.' :: (natToChars n3 ++ '+' :: build)))]
      rw [show natToChars n1 ++ '.' :: (natToChars n2 ++ '.' :: (natToChars n3 ++ '+' :: build))
          = (natToChars n1 ++ '.' :: (natToChars n2 ++ '.' :: natToChars n3)) ++ '+' :: build by
        simp [List.append_assoc]]
      rw [splitOnFirst_append hAplus]
      simp only []
      rw [splitOnFirst_not_mem hAminus]
      simp only []
      rw [hsA]
      simp only [atoi_natToChars]
      simp [List.append_assoc]
  · by_cases hbe : build = []
    · subst hbe
      simp only [ne_eq, not_true_eq_false, if_false, List.append_nil, hpe,
        not_false_iff, if_true]
      simp only [Parse]
      simp only [List.cons_append, List.append_assoc, List.nil_append]
      rw [htrimZ ('.' :: (natToChars n2 ++ '.' :: (natToChars n3 ++ '-' :: pre)))]
      rw [show natToChars n1 ++ '.' :: (natToChars n2 ++ '.' :: (natToChars n3 ++ '-' :: pre))
          = (natToChars n1 ++ '.' :: (natToChars n2 ++ '.' :: natToChars n3)) ++ '-' :: pre by
        simp [List.append_assoc]]
      rw [splitOnFirst_not_mem hSplus]
      simp only []
      rw [splitOnFirst_append hAminus]
      simp only []
      rw [hsA]
      simp only [atoi_natToChars]
      simp [List.append_assoc]
    · simp only [ne_eq, hpe, hbe, not_false_iff, if_true]
      simp only [Parse]
      simp only [List.cons_append, List.append_assoc, List.nil_append]
      rw [htrimZ ('.' :: (natToChars n2 ++ '.' :: (natToChars n3 ++ '-' :: (pre ++ '+' :: build))))]
      rw [show natToChars n1 ++ '.' :: (natToChars n2 ++ '.' ::
            (natToChars n3 ++ '-' :: (pre ++ '+' :: build)))
          = ((natToChars n1 ++ '.' :: (natToChars n2 ++ '.' :: natToChars n3)) ++ '-' :: pre)
              ++ '+' :: build by
        simp [List.append_assoc]]
      rw [splitOnFirst_append hSplus]
      simp only []
      rw [splitOnFirst_append hAminus]
      simp only []
      rw [hsA]
      simp only [atoi_natToChars]
      simp [List.append_assoc]

end version

namespace version

theorem parse_versionString {v : Version} (hv : goodVersion v) :
    Parse (VersionString v) = .ok { v with raw := VersionString v } := by
  obtain ⟨maj, mino, pat, pre, bld, raw⟩ := v
  obtain ⟨h1, h2, h3, h4⟩ := hv
  have e1 : intToChars maj = natToChars maj.toNat := by
    unfold intToChars
    rw [if_neg (not_lt.mpr h1)]
  have e2 : intToChars mino = natToChars mino.toNat := by
    unfold intToChars
    rw [if_neg (not_lt.mpr h2)]
  have e3 : intToChars pat = natToChars pat.toNat := by
    unfold intToChars
    rw [if_neg (not_lt.mpr h3)]
  simp only [VersionString, e1, e2, e3]
  rw [parse_canonical maj.toNat mino.toNat pat.toNat pre bld h4]
  simp [Int.toNat_of_nonneg h1, Int.toNat_of_nonneg h2, Int.toNat_of_nonneg h3]

/-- C6: for every string `s` accepted by `Parse`, rendering the parsed
version with `String` and parsing again succeeds, and the re-parsed
version renders to the same string: normalization reaches a fixed point
after one round trip. -/
theorem c6_parse_tostring_roundtrip (s : List Char) (v : Version)
    (h : Parse s = .ok v) :
    Parse (VersionString v) = .ok { v with raw := VersionString v }
    ∧ VersionString { v with raw := VersionString v } = VersionString v := by
  refine ⟨parse_versionString (parse_good h), ?_⟩
  cases v
  rfl

/-- C6 witness: the round-trip theorem applied to `v1.2.3-beta.1+build123`,
which normalizes to `1.2.3-beta.1+build123`. -/
theorem c6_witness :
    Parse (("v1.2.3-beta.1+build123").data)
      = .ok ⟨1, 2, 3, ("beta.1").data, ("build123").data, ("v1.2.3-beta.1+build123").data⟩
    ∧ (Parse (VersionString ⟨1, 2, 3, ("beta.1").data, ("build123").data,
          ("v1.2.3-beta.1+build123").data⟩)
        = .ok { (⟨1, 2, 3, ("beta.1").data, ("build123").data,
              ("v1.2.3-beta.1+build123").data⟩ : Version) with
            raw := VersionString ⟨1, 2, 3, ("beta.1").data, ("build123").data,
              ("v1.2.3-beta.1+build123").data⟩ }
      ∧ VersionString { (⟨1, 2, 3, ("beta.1").data, ("build123").data,
              ("v1.2.3-beta.1+build123").data⟩ : Version) with
            raw := VersionString ⟨1, 2, 3, ("beta.1").data, ("build123").data,
              ("v1.2.3-beta.1+build123").data⟩ }
          = VersionString ⟨1, 2, 3, ("beta.1").data, ("build123").data,
              ("v1.2.3-beta.1+build123").data⟩) :=
  ⟨by decide, c6_parse_tostring_roundtrip (("v1.2.3-beta.1+build123").data)
    ⟨1, 2, 3, ("beta.1").data, ("build123").data, ("v1.2.3-beta.1+build123").data⟩
    (by decide)⟩

end version

namespace db

theorem pickLatest_none_iff : ∀ l : List Release, pickLatest l = none ↔ l = [] := by
  intro l
  cases l with
  | nil => simp [pickLatest]
  | cons r rest =>
    simp only [pickLatest]
    cases hp : pickLatest rest with
    | none => simp
    | some b =>
      dsimp only []
      split_ifs <;> simp

theorem pickLatest_mem : ∀ l : List Release, ∀ r : Release,
    pickLatest l = some r → r ∈ l := by
  intro l
  induction l with
  | nil => intro r h; simp [pickLatest] at h
  | cons a rest ih =>
    intro r h
    simp only [pickLatest] at h
    cases hp : pickLatest rest with
    | none =>
      rw [hp] at h
      injection h with h
      rw [← h]
      exact List.mem_cons_self a rest
    | some b =>
      rw [hp] at h
      dsimp only [] at h
      split_ifs at h with hlt
      · injection h with h
        rw [← h]
        exact List.mem_cons.mpr (Or.inr (ih b hp))
      · injection h with h
        rw [← h]
        exact List.mem_cons_self a rest

theorem pickLatest_max : ∀ l : List Release, ∀ r : Release,
    pickLatest l = some r → ∀ x ∈ l, x.releasedAt ≤ r.releasedAt := by
  intro l
  induction l with
  | nil => intro r h; simp [pickLatest] at h
  | cons a rest ih =>
    intro r h x hx
    simp only [pickLatest] at h
    cases hp : pickLatest rest with
    | none =>
      rw [hp] at h
      injection h with h
      have hrest : rest = [] := (pickLatest_none_iff rest).mp hp
      rcases List.mem_cons.mp hx with h1 | h1
      · rw [h1, ← h]
      · rw [hrest] at h1; simp at h1
    | some b =>
      rw [hp] at h
      dsimp only [] at h
      split_ifs at h with hlt
      · injection h with h
        rcases List.mem_cons.mp hx with h1 | h1
        · rw [h1, ← h]; omega
        · rw [← h]; exact ih b hp x h1
      · injection h with h
        rcases List.mem_cons.mp hx with h1 | h1
        · rw [h1, ← h]
        · rw [← h]
          have := ih b hp x h1
          omega

/-- C2 counterexample: with candidates `1.0.0` (released at time 20) and
`2.0.0` (released at time 10), both non-deprecated, resolving `latest`
returns the `1.0.0` row because the query orders by `released_at` only,
even though `2.0.0` has the strictly greater SemanticVersion. -/
theorem c2_counterexample :
    GetRelease staleCandidates latestStr = .ok relNew100
    ∧ relOld200 ∈ staleCandidates
    ∧ relOld200.isDeprecated = false
    ∧ version.Parse relNew100.version = .ok ⟨1, 0, 0, [], [], ("1.0.0").data⟩
    ∧ version.Parse relOld200.version = .ok ⟨2, 0, 0, [], [], ("2.0.0").data⟩
    ∧ version.GreaterThan ⟨2, 0, 0, [], [], ("2.0.0").data⟩
        ⟨1, 0, 0, [], [], ("1.0.0").data⟩ = true := by
  refine ⟨by decide, by decide, by decide, by decide, by decide, by decide⟩

/-- C2 (amended): for an empty or `latest` expression, resolution picks,
among candidates with `isDeprecated = false`, the release with the latest
release timestamp (not the greatest SemanticVersion; the SQL orders by
`released_at DESC LIMIT 1`), and fails with the NotFound-style
`no releases found for package` error when that set is empty. -/
theorem c2_latest_timestamp_resolution (rows : List Release) (e : List Char)
    (he : e = [] ∨ e = latestStr) :
    GetRelease rows e = getLatestRelease rows
    ∧ (rows.filter (fun r => !r.isDeprecated) = [] →
        GetRelease rows e = .error .noReleasesForPackage)
    ∧ (∀ r, GetRelease rows e = .ok r →
        r ∈ rows ∧ r.isDeprecated = false
          ∧ ∀ q ∈ rows, q.isDeprecated = false → q.releasedAt ≤ r.releasedAt)
    ∧ (rows.filter (fun r => !r.isDeprecated) ≠ [] →
        ∃ r, GetRelease rows e = .ok r) := by
  have hroute : GetRelease rows e = getLatestRelease rows := by
    unfold GetRelease
    rw [if_pos he]
  refine ⟨hroute, ?_, ?_, ?_⟩
  · intro hnil
    rw [hroute]
    unfold getLatestRelease
    rw [hnil]
    simp [pickLatest]
  · intro r hr
    rw [hroute] at hr
    unfold getLatestRelease at hr
    cases hp : pickLatest (rows.filter (fun r => !r.isDeprecated)) with
    | none => rw [hp] at hr; simp at hr
    | some b =>
      rw [hp] at hr
      injection hr with hr
      subst hr
      have hmem := pickLatest_mem _ _ hp
      have hmax := pickLatest_max _ _ hp
      have hm := List.mem_filter.mp hmem
      refine ⟨hm.1, by simpa using hm.2, ?_⟩
      intro q hq hqd
      exact hmax q (List.mem_filter.mpr ⟨hq, by simp [hqd]⟩)
  · intro hne
    rw [hroute]
    unfold getLatestRelease
    cases hp : pickLatest (rows.filter (fun r => !r.isDeprecated)) with
    | none => exact absurd ((pickLatest_none_iff _).mp hp) hne
    | some b => exact ⟨b, rfl⟩

/-- C2 witness: the amended theorem at the spec's candidate list with the
`latest` expression; the survivor with the latest timestamp is `1.2.5`. -/
theorem c2_witness :
    ((("latest").data : List Char) = [] ∨ (("latest").data : List Char) = latestStr)
    ∧ (GetRelease specCandidates (("latest").data) = getLatestRelease specCandidates
      ∧ (specCandidates.filter (fun r => !r.isDeprecated) = [] →
          GetRelease specCandidates (("latest").data) = .error .noReleasesForPackage)
      ∧ (∀ r, GetRelease specCandidates (("latest").data) = .ok r →
          r ∈ specCandidates ∧ r.isDeprecated = false
            ∧ ∀ q ∈ specCandidates, q.isDeprecated = false →
                q.releasedAt ≤ r.releasedAt)
      ∧ (specCandidates.filter (fun r => !r.isDeprecated) ≠ [] →
          ∃ r, GetRelease specCandidates (("latest").data) = .ok r)) :=
  ⟨Or.inr rfl, c2_latest_timestamp_resolution specCandidates (("latest").data) (Or.inr rfl)⟩

end db

namespace db

/-- C3: when the requested expression parses as an exact SemanticVersion,
resolution looks up a row whose version string equals the normalized
rendering of the parsed version — the deprecation flag is never consulted,
so deprecated releases remain eligible — and fails with the NotFound-style
`version not found` error when no row matches exactly. -/
theorem c3_exact_resolution (rows : List Release) (e : List Char)
    (v : version.Version) (h1 : e ≠ []) (h2 : e ≠ latestStr)
    (hp : version.Parse e = .ok v) :
    GetRelease rows e =
      (match findRelease rows (version.VersionString v) with
       | some r => .ok r
       | none => .error (.versionNotFound e))
    ∧ (∀ r, findRelease rows (version.VersionString v) = some r →
        r ∈ rows ∧ r.version = version.VersionString v)
    ∧ (findRelease rows (version.VersionString v) = none ↔
        ∀ r ∈ rows, r.version ≠ version.VersionString v)
    ∧ (∀ r : Release, r.version = version.VersionString v →
        findRelease (r :: rows) (version.VersionString v) = some r) := by
  refine ⟨?_, ?_, ?_, ?_⟩
  · unfold GetRelease
    rw [if_neg (by push_neg; exact ⟨h1, h2⟩)]
    rw [hp]
    unfold getExactRelease
    rw [hp]
    dsimp only []
    cases findRelease rows (version.VersionString v) <;> rfl
  · intro r hr
    unfold findRelease at hr
    refine ⟨List.mem_of_find?_eq_some hr, ?_⟩
    have := List.find?_some hr
    simpa using this
  · unfold findRelease
    rw [List.find?_eq_none]
    simp
  · intro r hr
    unfold findRelease
    simp [List.find?_cons, hr]

/-- C3 witness: the spec's resolver scenario — exact request `2.0.0`
resolves to the deprecated `2.0.0` release. -/
theorem c3_witness :
    ((("2.0.0").data : List Char) ≠ [] ∧ (("2.0.0").data : List Char) ≠ latestStr
      ∧ version.Parse (("2.0.0").data) = .ok ⟨2, 0, 0, [], [], ("2.0.0").data⟩)
    ∧ (GetRelease specCandidates (("2.0.0").data) =
        (match findRelease specCandidates
            (version.VersionString ⟨2, 0, 0, [], [], ("2.0.0").data⟩) with
         | some r => .ok r
         | none => .error (.versionNotFound (("2.0.0").data)))
      ∧ (∀ r, findRelease specCandidates
            (version.VersionString ⟨2, 0, 0, [], [], ("2.0.0").data⟩) = some r →
          r ∈ specCandidates
            ∧ r.version = version.VersionString ⟨2, 0, 0, [], [], ("2.0.0").data⟩)
      ∧ (findRelease specCandidates
            (version.VersionString ⟨2, 0, 0, [], [], ("2.0.0").data⟩) = none ↔
          ∀ r ∈ specCandidates,
            r.version ≠ version.VersionString ⟨2, 0, 0, [], [], ("2.0.0").data⟩)
      ∧ (∀ r : Release,
          r.version = version.VersionString ⟨2, 0, 0, [], [], ("2.0.0").data⟩ →
          findRelease (r :: specCandidates)
              (version.VersionString ⟨2, 0, 0, [], [], ("2.0.0").data⟩) = some r)) :=
  ⟨⟨by decide, by decide, by decide⟩,
    c3_exact_resolution specCandidates (("2.0.0").data)
      ⟨2, 0, 0, [], [], ("2.0.0").data⟩ (by decide) (by decide) (by decide)⟩

end db

namespace version

theorem gtV_irrefl (v : Version) : GreaterThan v v = false := by
  unfold GreaterThan
  rw [compare_self]
  rfl

end version

namespace db

theorem isCompatible_isOk_indep (u w : version.Version) (e : List Char) :
    (version.IsCompatible u e).isOk = (version.IsCompatible w e).isOk := by
  unfold version.IsCompatible
  dsimp only []
  split_ifs
  · cases version.Parse (trimSpace e) <;> rfl
  · cases version.Parse (goTrimPre (trimSpace e) ('>' :: '=' :: [])) <;> rfl
  · cases version.Parse (goTrimPre (trimSpace e) ('>' :: [])) <;> rfl
  · cases version.Parse (goTrimPre (trimSpace e) ('<' :: '=' :: [])) <;> rfl
  · cases version.Parse (goTrimPre (trimSpace e) ('<' :: [])) <;> rfl
  · cases version.Parse (goTrimPre (trimSpace e) ('^' :: [])) <;> rfl
  · cases version.Parse (goTrimPre (trimSpace e) ('~' :: [])) <;> rfl
  · rfl
  · rfl

theorem isCompatible_ok_of_wf {e : List Char} (wf : wellFormedConstraint e = true)
    (u : version.Version) : (version.IsCompatible u e).isOk = true := by
  rw [isCompatible_isOk_indep u probeVersion e]
  exact wf

theorem isCompatible_err_of_not_wf {e : List Char}
    (wf : wellFormedConstraint e = false) (u : version.Version) :
    (version.IsCompatible u e).isOk = false := by
  rw [isCompatible_isOk_indep u probeVersion e]
  exact wf

end db

namespace db

theorem constraintLoop_wf (e : List Char) (wf : wellFormedConstraint e = true) :
    ∀ (rs : List Release) (b : Option (Release × version.Version)),
    (∀ p bv, b = some (p, bv) → version.Parse p.version = .ok bv) →
    (b = none ∧ rs.filter (survives e) = [] ∧
       constraintLoop e rs b = .error (.noCompatibleVersion e))
    ∨ (∃ r v, constraintLoop e rs b = .ok r ∧ version.Parse r.version = .ok v ∧
        (b = some (r, v) ∨ (r ∈ rs ∧ survives e r = true)) ∧
        (∀ p bv, b = some (p, bv) → version.GreaterThan bv v = false) ∧
        (∀ q ∈ rs, survives e q = true → ∀ qv, version.Parse q.version = .ok qv →
          version.GreaterThan qv v = false)) := by
  intro rs
  induction rs with
  | nil =>
    intro b hb
    cases b with
    | none => left; exact ⟨rfl, rfl, rfl⟩
    | some p =>
      right
      obtain ⟨pr, pv⟩ := p
      refine ⟨pr, pv, rfl, hb pr pv rfl, Or.inl rfl, ?_, by simp⟩
      intro p' bv' hbe
      injection hbe with hbe
      injection hbe with hbe1 hbe2
      rw [← hbe2]
      exact version.gtV_irrefl pv
  | cons r rest ih =>
    intro b hb
    by_cases hdep : r.isDeprecated = true
    · have hstep : constraintLoop e (r :: rest) b = constraintLoop e rest b := by
        simp only [constraintLoop, if_pos hdep]
      have hsurv : survives e r = false := by
        unfold survives
        rw [hdep]
        rfl
      rcases ih b hb with ⟨hb0, hf, he'⟩ | ⟨r', v', hok', hpv, hor, hbmax, hmax⟩
      · left
        refine ⟨hb0, ?_, by rw [hstep]; exact he'⟩
        simp [List.filter_cons, hsurv, hf]
      · right
        refine ⟨r', v', by rw [hstep]; exact hok', hpv, ?_, hbmax, ?_⟩
        · rcases hor with h | h
          · exact Or.inl h
          · exact Or.inr ⟨List.mem_cons.mpr (Or.inr h.1), h.2⟩
        · intro q hq hqs qv hqv
          rcases List.mem_cons.mp hq with h | h
          · rw [h, hsurv] at hqs
            exact Bool.noConfusion hqs
          · exact hmax q h hqs qv hqv
    · have hdf : r.isDeprecated = false := by
        revert hdep
        cases r.isDeprecated <;> simp
      cases hpr : version.Parse r.version with
      | error err =>
        have hstep : constraintLoop e (r :: rest) b = constraintLoop e rest b := by
          simp only [constraintLoop, if_neg hdep, hpr]
        have hsurv : survives e r = false := by
          unfold survives
          rw [hpr, hdf]
          rfl
        rcases ih b hb with ⟨hb0, hf, he'⟩ | ⟨r', v', hok', hpv, hor, hbmax, hmax⟩
        · left
          refine ⟨hb0, ?_, by rw [hstep]; exact he'⟩
          simp [List.filter_cons, hsurv, hf]
        · right
          refine ⟨r', v', by rw [hstep]; exact hok', hpv, ?_, hbmax, ?_⟩
          · rcases hor with h | h
            · exact Or.inl h
            · exact Or.inr ⟨List.mem_cons.mpr (Or.inr h.1), h.2⟩
          · intro q hq hqs qv hqv
            rcases List.mem_cons.mp hq with h | h
            · rw [h, hsurv] at hqs
              exact Bool.noConfusion hqs
            · exact hmax q h hqs qv hqv
      | ok v =>
        cases hic : version.IsCompatible v e with
        | error m =>
          have hko := isCompatible_ok_of_wf wf v
          rw [hic] at hko
          exact absurd hko (by simp [Except.isOk, Except.toBool])
        | ok compat =>
          cases compat with
          | false =>
            have hstep : constraintLoop e (r :: rest) b = constraintLoop e rest b := by
              simp only [constraintLoop, if_neg hdep, hpr, hic]
            have hsurv : survives e r = false := by
              unfold survives
              rw [hpr]
              dsimp only []
              rw [hic, hdf]
              rfl
            rcases ih b hb with ⟨hb0, hf, he'⟩ | ⟨r', v', hok', hpv, hor, hbmax, hmax⟩
            · left
              refine ⟨hb0, ?_, by rw [hstep]; exact he'⟩
              simp [List.filter_cons, hsurv, hf]
            · right
              refine ⟨r', v', by rw [hstep]; exact hok', hpv, ?_, hbmax, ?_⟩
              · rcases hor with h | h
                · exact Or.inl h
                · exact Or.inr ⟨List.mem_cons.mpr (Or.inr h.1), h.2⟩
              · intro q hq hqs qv hqv
                rcases List.mem_cons.mp hq with h | h
                · rw [h, hsurv] at hqs
                  exact Bool.noConfusion hqs
                · exact hmax q h hqs qv hqv
          | true =>
            have hsurv : survives e r = true := by
              unfold survives
              rw [hpr]
              dsimp only []
              rw [hic, hdf]
              rfl
            cases b with
            | none =>
              have hstep : constraintLoop e (r :: rest) none
                  = constraintLoop e rest (some (r, v)) := by
                simp only [constraintLoop, if_neg hdep, hpr, hic]
              have hb' : ∀ p bv, (some (r, v) : Option (Release × version.Version))
                  = some (p, bv) → version.Parse p.version = .ok bv := by
                intro p bv hbe
                injection hbe with hbe
                injection hbe with hbe1 hbe2
                rw [← hbe1, ← hbe2]
                exact hpr
              rcases ih (some (r, v)) hb' with ⟨hb0, _, _⟩ | ⟨r', v', hok', hpv, hor, hbmax, hmax⟩
              · exact absurd hb0 (by simp)
              · right
                refine ⟨r', v', by rw [hstep]; exact hok', hpv, ?_,
                  fun p bv h => absurd h (by simp), ?_⟩
                · rcases hor with h | h
                  · injection h with h
                    injection h with h1 h2
                    exact Or.inr ⟨List.mem_cons.mpr (Or.inl h1.symm), by rw [← h1]; exact hsurv⟩
                  · exact Or.inr ⟨List.mem_cons.mpr (Or.inr h.1), h.2⟩
                · intro q hq hqs qv hqv
                  rcases List.mem_cons.mp hq with h | h
                  · subst h
                    rw [hpr] at hqv
                    injection hqv with hqv
                    rw [← hqv]
                    exact hbmax q v rfl
                  · exact hmax q h hqs qv hqv
            | some p =>
              obtain ⟨br, bv⟩ := p
              have hbparse : version.Parse br.version = .ok bv := hb br bv rfl
              by_cases hgt : version.GreaterThan v bv = true
              · have hstep : constraintLoop e (r :: rest) (some (br, bv))
                    = constraintLoop e rest (some (r, v)) := by
                  simp only [constraintLoop, if_neg hdep, hpr, hic, if_pos hgt]
                have hb' : ∀ p' bv', (some (r, v) : Option (Release × version.Version))
                    = some (p', bv') → version.Parse p'.version = .ok bv' := by
                  intro p' bv' hbe
                  injection hbe with hbe
                  injection hbe with hbe1 hbe2
                  rw [← hbe1, ← hbe2]
                  exact hpr
                rcases ih (some (r, v)) hb' with ⟨hb0, _, _⟩ | ⟨r', v', hok', hpv, hor, hbmax, hmax⟩
                · exact absurd hb0 (by simp)
                · right
                  have hvv' : version.GreaterThan v v' = false := hbmax r v rfl
                  have hbvv' : version.GreaterThan bv v' = false := by
                    by_cases hc : version.GreaterThan bv v' = true
                    · have := version.gtV_trans hgt hc
                      rw [hvv'] at this
                      exact Bool.noConfusion this
                    · revert hc
                      cases version.GreaterThan bv v' <;> simp
                  refine ⟨r', v', by rw [hstep]; exact hok', hpv, ?_, ?_, ?_⟩
                  · rcases hor with h | h
                    · injection h with h
                      injection h with h1 h2
                      exact Or.inr ⟨List.mem_cons.mpr (Or.inl h1.symm),
                        by rw [← h1]; exact hsurv⟩
                    · exact Or.inr ⟨List.mem_cons.mpr (Or.inr h.1), h.2⟩
                  · intro p' bv' hbe
                    injection hbe with hbe
                    injection hbe with hbe1 hbe2
                    rw [← hbe2]
                    exact hbvv'
                  · intro q hq hqs qv hqv
                    rcases List.mem_cons.mp hq with h | h
                    · subst h
                      rw [hpr] at hqv
                      injection hqv with hqv
                      rw [← hqv]
                      exact hvv'
                    · exact hmax q h hqs qv hqv
              · have hgtf : version.GreaterThan v bv = false := by
                  revert hgt
                  cases version.GreaterThan v bv <;> simp
                have hstep : constraintLoop e (r :: rest) (some (br, bv))
                    = constraintLoop e rest (some (br, bv)) := by
                  simp only [constraintLoop, if_neg hdep, hpr, hic, if_neg hgt]
                rcases ih (some (br, bv)) hb with ⟨hb0, _, _⟩ | ⟨r', v', hok', hpv, hor, hbmax, hmax⟩
                · exact absurd hb0 (by simp)
                · right
                  have hbvv' : version.GreaterThan bv v' = false := hbmax br bv rfl
                  have hvv' : version.GreaterThan v v' = false := version.ngtV_trans hgtf hbvv'
                  refine ⟨r', v', by rw [hstep]; exact hok', hpv, ?_, ?_, ?_⟩
                  · rcases hor with h | h
                    · exact Or.inl h
                    · exact Or.inr ⟨List.mem_cons.mpr (Or.inr h.1), h.2⟩
                  · intro p' bv' hbe
                    injection hbe with hbe
                    injection hbe with hbe1 hbe2
                    rw [← hbe2]
                    exact hbvv'
                  · intro q hq hqs qv hqv
                    rcases List.mem_cons.mp hq with h | h
                    · subst h
                      rw [hpr] at hqv
                      injection hqv with hqv
                      rw [← hqv]
                      exact hvv'
                    · exact hmax q h hqs qv hqv

end db

namespace db

theorem constraintLoop_malformed (e : List Char) (wf : wellFormedConstraint e = false) :
    ∀ (rs : List Release) (b : Option (Release × version.Version)),
    (∃ r ∈ rs, r.isDeprecated = false ∧ (version.Parse r.version).isOk = true) →
    ∃ m, constraintLoop e rs b = .error (.invalidConstraint e m) := by
  intro rs
  induction rs with
  | nil =>
    intro b h
    obtain ⟨r, hr, _⟩ := h
    simp at hr
  | cons r rest ih =>
    intro b hex
    by_cases hdep : r.isDeprecated = true
    · obtain ⟨q, hq, hqd, hqp⟩ := hex
      rcases List.mem_cons.mp hq with h | h
      · rw [h, hdep] at hqd
        exact absurd hqd (by simp)
      · have hstep : constraintLoop e (r :: rest) b = constraintLoop e rest b := by
          simp only [constraintLoop, if_pos hdep]
        obtain ⟨m, hm⟩ := ih b ⟨q, h, hqd, hqp⟩
        exact ⟨m, by rw [hstep]; exact hm⟩
    · cases hpr : version.Parse r.version with
      | error err =>
        obtain ⟨q, hq, hqd, hqp⟩ := hex
        rcases List.mem_cons.mp hq with h | h
        · rw [h, hpr] at hqp
          exact absurd hqp (by simp [Except.isOk, Except.toBool])
        · have hstep : constraintLoop e (r :: rest) b = constraintLoop e rest b := by
            simp only [constraintLoop, if_neg hdep, hpr]
          obtain ⟨m, hm⟩ := ih b ⟨q, h, hqd, hqp⟩
          exact ⟨m, by rw [hstep]; exact hm⟩
      | ok v =>
        have hko := isCompatible_err_of_not_wf wf v
        cases hic : version.IsCompatible v e with
        | ok bb =>
          rw [hic] at hko
          exact absurd hko (by simp [Except.isOk, Except.toBool])
        | error m =>
          refine ⟨m, ?_⟩
          simp only [constraintLoop, if_neg hdep, hpr, hic]

/-- C1 counterexample: with the single deprecated candidate `1.0.0` and the
malformed expression `abc` (whose `IsCompatible` check always errors),
resolution reports `no version satisfies constraint` instead of propagating
a ConstraintError; and with an empty candidate list it reports the
NotFound-style `no releases found`, not NoCompatibleVersion. -/
theorem c1_counterexample :
    (version.IsCompatible ⟨1, 0, 0, [], [], ("1.0.0").data⟩ abcConstraint).isOk = false
    ∧ GetRelease depOnlyCandidates abcConstraint = .error (.noCompatibleVersion abcConstraint)
    ∧ GetRelease ([] : List Release) abcConstraint = .error .noReleasesFound := by
  refine ⟨by decide, by decide, by decide⟩

/-- C1 (amended): for every expression that is neither empty, `latest`, nor
parseable as an exact version, resolution filters out deprecated candidates,
keeps exactly those whose version parses and satisfies `IsCompatible`, and
returns a release whose SemanticVersion no survivor strictly exceeds; it
fails with NoCompatibleVersion when the candidate list is nonempty but the
survivor set is empty, fails with the NotFound-style `no releases found`
when the candidate list is empty, and propagates a ConstraintError for a
malformed expression only when at least one non-deprecated candidate with a
parseable version is present. -/
theorem c1_constraint_resolution (rows : List Release) (e : List Char)
    (h1 : e ≠ []) (h2 : e ≠ latestStr) (hp : (version.Parse e).isOk = false) :
    (rows = [] → GetRelease rows e = .error .noReleasesFound)
    ∧ (wellFormedConstraint e = true → rows ≠ [] →
        ((rows.filter (survives e) = [] →
            GetRelease rows e = .error (.noCompatibleVersion e))
         ∧ (rows.filter (survives e) ≠ [] →
            ∃ r v, GetRelease rows e = .ok r ∧ r ∈ rows ∧ survives e r = true
              ∧ version.Parse r.version = .ok v
              ∧ ∀ q ∈ rows, survives e q = true →
                  ∀ qv, version.Parse q.version = .ok qv →
                    version.GreaterThan qv v = false)))
    ∧ (wellFormedConstraint e = false →
        (∃ r ∈ rows, r.isDeprecated = false ∧ (version.Parse r.version).isOk = true) →
        ∃ m, GetRelease rows e = .error (.invalidConstraint e m)) := by
  have hroute : GetRelease rows e = getReleaseByConstraint rows e := by
    unfold GetRelease
    rw [if_neg (by push_neg; exact ⟨h1, h2⟩)]
    cases hpe : version.Parse e with
    | ok v =>
      rw [hpe] at hp
      exact absurd hp (by simp [Except.isOk, Except.toBool])
    | error err => rfl
  refine ⟨?_, ?_, ?_⟩
  · intro hnil
    rw [hroute, hnil]
    rfl
  · intro wf hne
    cases rows with
    | nil => exact absurd rfl hne
    | cons q qs =>
      have hloop : GetRelease (q :: qs) e = constraintLoop e (q :: qs) none := by
        rw [hroute]
        rfl
      rcases constraintLoop_wf e wf (q :: qs) none (fun p bv h => absurd h (by simp))
        with ⟨_, hf, herr⟩ | ⟨r, v, hok, hpv, hor, _, hmax⟩
      · constructor
        · intro _
          rw [hloop]
          exact herr
        · intro hnf
          exact absurd hf hnf
      · have hmem : r ∈ q :: qs ∧ survives e r = true := by
          rcases hor with h | h
          · exact absurd h (by simp)
          · exact h
        constructor
        · intro hf
          have : r ∈ List.filter (survives e) (q :: qs) :=
            List.mem_filter.mpr ⟨hmem.1, hmem.2⟩
          rw [hf] at this
          simp at this
        · intro _
          exact ⟨r, v, by rw [hloop]; exact hok, hmem.1, hmem.2, hpv, hmax⟩
  · intro wf hex
    have hex2 := hex
    obtain ⟨q, hq, _, _⟩ := hex2
    cases rows with
    | nil => simp at hq
    | cons q0 qs =>
      have hloop : GetRelease (q0 :: qs) e = constraintLoop e (q0 :: qs) none := by
        rw [hroute]
        rfl
      obtain ⟨m, hm⟩ := constraintLoop_malformed e wf (q0 :: qs) none hex
      exact ⟨m, by rw [hloop]; exact hm⟩

end db

namespace db

/-- C1 witness: the amended resolution theorem applied to the spec's
scenario — candidates `1.0.0`, `1.2.0`, `1.2.5`, deprecated `2.0.0` and the
well-formed constraint `^1.0.0`. -/
theorem c1_witness :
    ((("^1.0.0").data : List Char) ≠ [] ∧ (("^1.0.0").data : List Char) ≠ latestStr
      ∧ (version.Parse (("^1.0.0").data)).isOk = false)
    ∧ ((specCandidates = [] →
          GetRelease specCandidates (("^1.0.0").data) = .error .noReleasesFound)
      ∧ (wellFormedConstraint (("^1.0.0").data) = true → specCandidates ≠ [] →
          ((specCandidates.filter (survives (("^1.0.0").data)) = [] →
              GetRelease specCandidates (("^1.0.0").data)
                = .error (.noCompatibleVersion (("^1.0.0").data)))
           ∧ (specCandidates.filter (survives (("^1.0.0").data)) ≠ [] →
              ∃ r v, GetRelease specCandidates (("^1.0.0").data) = .ok r
                ∧ r ∈ specCandidates ∧ survives (("^1.0.0").data) r = true
                ∧ version.Parse r.version = .ok v
                ∧ ∀ q ∈ specCandidates, survives (("^1.0.0").data) q = true →
                    ∀ qv, version.Parse q.version = .ok qv →
                      version.GreaterThan qv v = false)))
      ∧ (wellFormedConstraint (("^1.0.0").data) = false →
          (∃ r ∈ specCandidates, r.isDeprecated = false
            ∧ (version.Parse r.version).isOk = true) →
          ∃ m, GetRelease specCandidates (("^1.0.0").data)
            = .error (.invalidConstraint (("^1.0.0").data) m))) :=
  ⟨⟨by decide, by decide, by decide⟩,
    c1_constraint_resolution specCandidates (("^1.0.0").data)
      (by decide) (by decide) (by decide)⟩

end db

namespace parser

theorem validate_ok_arity {i : Instruction} (h : validateInstr i = .ok ()) :
    arityOk i.token i.args.length = true := by
  unfold validateInstr at h
  unfold arityOk
  cases ht : i.token <;> rw [ht] at h <;> dsimp only [] at h ⊢ <;>
    first
    | rfl
    | (split_ifs at h with hc <;> simp_all only [Bool.and_eq_true, decide_eq_true_eq] <;> omega)

theorem parseLinesAux_arity (ac : Bool) :
    ∀ (ls : List (List Char)) (n : Nat) (acc l : List Instruction),
    (∀ i ∈ acc, arityOk i.token i.args.length = true) →
    parseLinesAux ac ls n acc = .ok l →
    ∀ i ∈ l, arityOk i.token i.args.length = true := by
  intro ls
  induction ls with
  | nil =>
    intro n acc l hacc h i hi
    injection h with h
    rw [← h] at hi
    exact hacc i hi
  | cons x rest ih =>
    intro n acc l hacc h
    simp only [parseLinesAux] at h
    split_ifs at h with hskip
    · exact ih (n + 1) acc l hacc h
    · cases hpl : parseLine (trimSpace x) (n + 1) with
      | error e => rw [hpl] at h; simp at h
      | ok i0 =>
        rw [hpl] at h
        dsimp only [] at h
        cases hv : validateInstr i0 with
        | error e2 =>
          rw [hv] at h
          dsimp only [] at h
          exact absurd h (by simp)
        | ok u =>
          rw [hv] at h
          dsimp only [] at h
          refine ih (n + 1) (acc ++ [i0]) l ?_ h
          intro j hj
          rcases List.mem_append.mp hj with hj | hj
          · exact hacc j hj
          · simp at hj
            rw [hj]
            cases u
            exact validate_ok_arity hv

/-- C7 (amended): every instruction in a successful parse satisfies the
per-variant argument-count table (Extract family 1-2, Move/Copy/Rename
exactly 2, AddToPath/SetLocation/Delete/Chmod exactly 1, RunScript at least
1), so an arity mismatch on any line fails the whole parse; the failure's
ParseError names the line number and the expected arity, but the keyword
appears literally only for the Extract family (always as `EXTRACT`) — for
the other variants `%v` renders the token's integer value instead of its
keyword. -/
theorem c7_arity_validation :
    (∀ (cfg : ParserCfg) (data : List Char) (l : List Instruction),
      parseScript cfg data = .ok l →
      ∀ i ∈ l, arityOk i.token i.args.length = true)
    ∧ (∀ (i : Instruction) (m : GoError), validateInstr i = .error m →
        ((i.token = .EXTRACT ∨ i.token = .EXTRACT_TAR ∨ i.token = .EXTRACT_TAR_GZ) →
          m = extractArityMsg i.lineNumber)
        ∧ ((i.token = .ADD_TO_PATH ∨ i.token = .SET_LOCATION ∨ i.token = .DELETE
            ∨ i.token = .CHMOD) → m = oneArgMsg i.token i.lineNumber)
        ∧ ((i.token = .MOVE ∨ i.token = .COPY ∨ i.token = .RENAME) →
          m = twoArgMsg i.token i.lineNumber)
        ∧ (i.token = .RUN_SCRIPT → m = runScriptArityMsg i.lineNumber)) := by
  constructor
  · intro cfg data l h
    unfold parseScript at h
    split_ifs at h with hb
    cases hpa : parseLinesAux cfg.allowComments (splitAll (Char.ofNat 10) data) 0 [] with
    | error e => rw [hpa] at h; simp at h
    | ok l0 =>
      rw [hpa] at h
      cases l0 with
      | nil =>
        dsimp only [] at h
        exact absurd h (by simp)
      | cons a as =>
        dsimp only [] at h
        injection h with h
        rw [← h]
        exact parseLinesAux_arity cfg.allowComments _ 0 [] (a :: as) (by simp) hpa
  · intro i m h
    unfold validateInstr at h
    refine ⟨?_, ?_, ?_, ?_⟩ <;> intro ht
    · rcases ht with ht | ht | ht <;> (rw [ht] at h; try rw [ht]) <;> dsimp only [] at h <;>
        split_ifs at h <;>
        (injection h with h; try rw [← h])
    · rcases ht with ht | ht | ht | ht <;> (rw [ht] at h; try rw [ht]) <;> dsimp only [] at h <;>
        split_ifs at h <;>
        (injection h with h; try rw [← h])
    · rcases ht with ht | ht | ht <;> (rw [ht] at h; try rw [ht]) <;> dsimp only [] at h <;>
        split_ifs at h <;>
        (injection h with h; try rw [← h])
    · rw [ht] at h
      try rw [ht]
      dsimp only [] at h
      split_ifs at h <;>
        (injection h with h; try rw [← h])

end parser

/-- C7 counterexample: a `MOVE` line with one argument fails arity
validation, but the error message renders the token's integer value `4`
rather than the keyword — `MOVE` does not occur in the message, so the
claim's "ParseError naming the keyword" is false for non-Extract
variants. -/
theorem c7_counterexample :
    parser.parseScript parser.NewParser (("MOVE a").data)
      = .error (("line 1: 4 requires exactly 2 arguments (source destination)").data)
    ∧ substrOf (("MOVE").data)
        (("line 1: 4 requires exactly 2 arguments (source destination)").data) = false := by
  refine ⟨by decide, by decide⟩

/-- C7 witness: the arity theorem applied to the spec's two-line script,
whose two instructions both pass the table. -/
theorem c7_witness :
    parser.parseScript parser.NewParser
        (("EXTRACT app.zip").data ++ Char.ofNat 10 :: ("ADD_TO_PATH bin").data)
      = .ok [⟨.EXTRACT, [("app.zip").data], ("EXTRACT app.zip").data, 1⟩,
             ⟨.ADD_TO_PATH, [("bin").data], ("ADD_TO_PATH bin").data, 2⟩]
    ∧ (∀ i ∈ [(⟨.EXTRACT, [("app.zip").data], ("EXTRACT app.zip").data, 1⟩ : parser.Instruction),
              ⟨.ADD_TO_PATH, [("bin").data], ("ADD_TO_PATH bin").data, 2⟩],
        parser.arityOk i.token i.args.length = true) :=
  ⟨by decide,
    fun i hi => parser.c7_arity_validation.1 parser.NewParser
      (("EXTRACT app.zip").data ++ Char.ofNat 10 :: ("ADD_TO_PATH bin").data)
      [⟨.EXTRACT, [("app.zip").data], ("EXTRACT app.zip").data, 1⟩,
       ⟨.ADD_TO_PATH, [("bin").data], ("ADD_TO_PATH bin").data, 2⟩]
      (by decide) i hi⟩

namespace exec

theorem runInstructions_prefix_fail
    (step : parser.Instruction → model.InstallationContext →
      Except GoError model.InstallationContext) :
    ∀ (pre : List parser.Instruction) (ctx : model.InstallationContext)
      (i : parser.Instruction) (post : List parser.Instruction)
      (c1 : model.InstallationContext) (e : GoError),
    stepAll step pre ctx = .ok c1 → step i c1 = .error e →
    runInstructions step (pre ++ i :: post) ctx = model.MarkFailed e c1 := by
  intro pre
  induction pre with
  | nil =>
    intro ctx i post c1 e hs hf
    injection hs with hs
    rw [List.nil_append]
    simp only [runInstructions]
    rw [hs, hf]
  | cons j rest ih =>
    intro ctx i post c1 e hs hf
    simp only [stepAll] at hs
    cases hj : step j ctx with
    | error e2 => rw [hj] at hs; simp at hs
    | ok c' =>
      rw [hj] at hs
      dsimp only [] at hs
      rw [List.cons_append]
      simp only [runInstructions]
      rw [hj]
      exact ih c' i post c1 e hs hf

/-- C8: for every per-instruction step function (the `RunWithContext` the
loop invokes), if the steps before position k succeed and step k fails, the
install loop's result is exactly the context accumulated by the first k
steps marked failed — status `failed`, the error captured, files and env
modifications exactly those of the successful prefix, and the instructions
after k never influence the result; if every step succeeds the result is
the fully stepped context marked `completed`. -/
theorem c8_executor_halt_on_failure
    (step : parser.Instruction → model.InstallationContext →
      Except GoError model.InstallationContext)
    (insts : List parser.Instruction) (ctx : model.InstallationContext) :
    (∀ pre i post c1 e, insts = pre ++ i :: post →
      stepAll step pre ctx = .ok c1 → step i c1 = .error e →
      runInstructions step insts ctx = model.MarkFailed e c1
        ∧ (model.MarkFailed e c1).installation.status = ("failed").data
        ∧ (model.MarkFailed e c1).installation.errorMessage = e
        ∧ (model.MarkFailed e c1).files = c1.files
        ∧ (model.MarkFailed e c1).envMods = c1.envMods)
    ∧ (∀ c, stepAll step insts ctx = .ok c →
        runInstructions step insts ctx = model.MarkCompleted c
          ∧ (model.MarkCompleted c).installation.status = ("completed").data) := by
  constructor
  · intro pre i post c1 e hin hs hf
    refine ⟨?_, rfl, rfl, rfl, rfl⟩
    rw [hin]
    exact runInstructions_prefix_fail step pre ctx i post c1 e hs hf
  · have hall : ∀ (l : List parser.Instruction) (c0 : model.InstallationContext) (c : model.InstallationContext),
        stepAll step l c0 = .ok c →
        runInstructions step l c0 = model.MarkCompleted c := by
      intro l
      induction l with
      | nil =>
        intro c0 c hs
        injection hs with hs
        rw [hs]
        rfl
      | cons j rest ih =>
        intro c0 c hs
        simp only [stepAll] at hs
        cases hj : step j c0 with
        | error e2 => rw [hj] at hs; simp at hs
        | ok c' =>
          rw [hj] at hs
          dsimp only [] at hs
          simp only [runInstructions]
          rw [hj]
          exact ih c' c hs
    intro c hs
    exact ⟨hall insts ctx c hs, rfl⟩

/-- C8 witness: a three-instruction script whose second instruction fails
under `capsDemo` — the result is the context produced by the first
instruction alone, marked failed; the third instruction never runs. -/
theorem c8_witness :
    (([instMove, instDelete, instChmod] : List parser.Instruction)
        = [instMove] ++ instDelete :: [instChmod]
      ∧ stepAll (runWithContext capsDemo) [instMove] ctxDemo
        = .ok { ctxDemo with files := [("/w/b").data] }
      ∧ runWithContext capsDemo instDelete { ctxDemo with files := [("/w/b").data] }
        = .error (("disk error").data))
    ∧ (runInstructions (runWithContext capsDemo) [instMove, instDelete, instChmod] ctxDemo
        = model.MarkFailed (("disk error").data) { ctxDemo with files := [("/w/b").data] }
      ∧ (model.MarkFailed (("disk error").data)
          { ctxDemo with files := [("/w/b").data] }).installation.status = ("failed").data
      ∧ (model.MarkFailed (("disk error").data)
          { ctxDemo with files := [("/w/b").data] }).installation.errorMessage
            = ("disk error").data
      ∧ (model.MarkFailed (("disk error").data)
          { ctxDemo with files := [("/w/b").data] }).files
            = ({ ctxDemo with files := [("/w/b").data] } : model.InstallationContext).files
      ∧ (model.MarkFailed (("disk error").data)
          { ctxDemo with files := [("/w/b").data] }).envMods
            = ({ ctxDemo with files := [("/w/b").data] } : model.InstallationContext).envMods) :=
  ⟨⟨by decide, by decide, by decide⟩,
    (c8_executor_halt_on_failure (runWithContext capsDemo)
        [instMove, instDelete, instChmod] ctxDemo).1
      [instMove] instDelete [instChmod] { ctxDemo with files := [("/w/b").data] }
      (("disk error").data) (by decide) (by decide) (by decide)⟩

end exec

namespace exec

/-- C9 (spec-modelled, `RunWithContext` being absent from the sources): a
successful `ADD_TO_PATH` step resolves its argument to an absolute path
(joined with the context's working directory when relative), invokes the
PATH-registration capability, sets the context's PATH-entry field to the
registered value, and appends exactly one `EnvironmentModification` record;
no other instruction variant ever appends an environment modification. -/
theorem c9_addtopath_envmod (caps : Caps) (i : parser.Instruction)
    (ctx : model.InstallationContext) :
    (i.token = .ADD_TO_PATH →
      (resolvedAddPath i ctx.workDir
          = (if isAbsPath (arg0 i) = true then arg0 i else goJoin ctx.workDir (arg0 i)))
      ∧ (∀ e, caps.addToPath (resolvedAddPath i ctx.workDir) = .error e →
          runWithContext caps i ctx = .error (("failed to add to PATH: ").data ++ e))
      ∧ (∀ sysPath, caps.addToPath (resolvedAddPath i ctx.workDir) = .ok sysPath →
          ∃ ctx2, runWithContext caps i ctx = .ok ctx2
            ∧ ctx2.installation.sysPath = sysPath
            ∧ ctx2.envMods = ctx.envMods ++
                [{ modificationType := ("path_addition").data,
                   variableName := ("PATH").data, variableValue := sysPath,
                   originalValue := [] }]))
    ∧ (∀ ctx2, i.token ≠ .ADD_TO_PATH → runWithContext caps i ctx = .ok ctx2 →
        ctx2.envMods = ctx.envMods) := by
  constructor
  · intro ht
    refine ⟨rfl, ?_, ?_⟩
    · intro e he
      unfold runWithContext
      rw [ht]
      dsimp only []
      rw [he]
    · intro sysPath hp
      unfold runWithContext
      rw [ht]
      dsimp only []
      rw [hp]
      refine ⟨_, rfl, rfl, ?_⟩
      simp [model.AddEnvMod]
  · intro ctx2 hne hok
    unfold runWithContext at hok
    cases ht : i.token <;> rw [ht] at hok <;> dsimp only [] at hok
    case DOWNLOAD => exact absurd hok (by simp)
    case EXTRACT =>
      cases hc : caps.extractZip (goJoin ctx.workDir (arg0 i)) (extractDest i ctx.workDir) with
      | error e => rw [hc] at hok; exact absurd hok (by simp)
      | ok u =>
        rw [hc] at hok
        injection hok with hok
        rw [← hok]
        simp [model.AddFile]
    case EXTRACT_TAR =>
      cases hc : caps.extractTar (goJoin ctx.workDir (arg0 i)) (extractDest i ctx.workDir) with
      | error e => rw [hc] at hok; exact absurd hok (by simp)
      | ok u =>
        rw [hc] at hok
        injection hok with hok
        rw [← hok]
        simp [model.AddFile]
    case EXTRACT_TAR_GZ =>
      cases hc : caps.extractTarGz (goJoin ctx.workDir (arg0 i)) (extractDest i ctx.workDir) with
      | error e => rw [hc] at hok; exact absurd hok (by simp)
      | ok u =>
        rw [hc] at hok
        injection hok with hok
        rw [← hok]
        simp [model.AddFile]
    case MOVE =>
      cases hc : caps.move (goJoin ctx.workDir (arg0 i)) (goJoin ctx.workDir (arg1 i)) with
      | error e => rw [hc] at hok; exact absurd hok (by simp)
      | ok u =>
        rw [hc] at hok
        injection hok with hok
        rw [← hok]
        simp [model.AddFile]
    case COPY =>
      cases hc : caps.copy (goJoin ctx.workDir (arg0 i)) (goJoin ctx.workDir (arg1 i)) with
      | error e => rw [hc] at hok; exact absurd hok (by simp)
      | ok u =>
        rw [hc] at hok
        injection hok with hok
        rw [← hok]
        simp [model.AddFile]
    case RENAME =>
      cases hc : caps.move (goJoin ctx.workDir (arg0 i)) (goJoin ctx.workDir (arg1 i)) with
      | error e => rw [hc] at hok; exact absurd hok (by simp)
      | ok u =>
        rw [hc] at hok
        injection hok with hok
        rw [← hok]
        simp [model.AddFile]
    case DELETE =>
      cases hc : caps.delete (goJoin ctx.workDir (arg0 i)) with
      | error e => rw [hc] at hok; exact absurd hok (by simp)
      | ok u =>
        rw [hc] at hok
        injection hok with hok
        rw [← hok]
    case CHMOD =>
      cases hc : caps.makeExecutable (goJoin ctx.workDir (arg0 i)) with
      | error e => rw [hc] at hok; exact absurd hok (by simp)
      | ok u =>
        rw [hc] at hok
        injection hok with hok
        rw [← hok]
    case ADD_TO_PATH => exact absurd ht hne
    case SET_LOCATION =>
      injection hok with hok
      rw [← hok]
    case RUN_SCRIPT => exact absurd hok (by simp)
    case INVALID => exact absurd hok (by simp)

/-- C9 witness: under `capsDemo`, `ADD_TO_PATH bin` in working directory
`/w` registers `/w/bin`, sets the context's PATH-entry field, and appends
one environment-modification record. -/
theorem c9_witness :
    ∃ ctx2, runWithContext capsDemo instAddPath ctxDemo = .ok ctx2
      ∧ ctx2.installation.sysPath = ("/w/bin").data
      ∧ ctx2.envMods = ctxDemo.envMods ++
          [{ modificationType := ("path_addition").data,
             variableName := ("PATH").data, variableValue := ("/w/bin").data,
             originalValue := [] }] :=
  ((c9_addtopath_envmod capsDemo instAddPath ctxDemo).1 rfl).2.2
    (("/w/bin").data) (by decide)

end exec
